import Mathlib

/-!
Verification of the front-end driver in `main.c` of the satch SAT solver:
the DIMACS parser, the witness pretty-printer, the signal handler and the
command-line option validation.  The C code is shallowly embedded: the input
stream becomes a list of characters, the global parser state (line number,
byte count) is threaded explicitly, fatal calls to `parse_error` become an
`Except` error carrying the line number and a message tag, and every call to
`satch_add` is recorded in an output list.  Loops are translated with an
explicit fuel argument; every call site passes fuel strictly larger than the
length of the remaining input, which is always sufficient because every loop
iteration consumes at least one input character.
-/

namespace Satch

/-- Maximum value of a signed 32-bit integer (`INT_MAX` in the C code). -/
def INT_MAX : Nat := 2147483647

/-- Maximum value of `size_t` on the 64-bit platform (`~(size_t)0` in `parse`). -/
def MAX_SIZE_T : Nat := 18446744073709551615

/-- Value of `INT_MIN` as a mathematical integer. -/
def INT_MIN : Int := -2147483648

/-- Parser state: the remaining input stream together with the globals
`lineno` (1-based line number) and `bytes` (bytes consumed) of `main.c`. -/
structure St where
  input : List Char
  lineno : Nat
  bytes : Nat
deriving Repr, DecidableEq

/-- Tags for the distinct `parse_error` messages of `main.c`, carrying the
format arguments that the corresponding C format strings interpolate.
The extra tag `outOfFuel` is a modelling artefact of the fuelled loops and
is never produced when a loop is run with sufficient fuel. -/
inductive Msg where
  | expectedNewLineAfterCR
  | eofInHeaderComment
  | expectedPorC
  | expectedSpaceAfterP
  | expectedCAfterP
  | expectedNAfterPC
  | expectedFAfterPCN
  | expectedSpaceAfterPCNF
  | expectedDigitAfterPCNF
  | invalidDigitAfterZeroMaxVar
  | maxVarWayTooBig
  | maxVarTooBig
  | expectedSpaceAfterVars (vars : Nat)
  | expectedDigitAfterVars (vars : Nat)
  | invalidDigitAfterZeroClauses
  | wayTooManyClauses
  | tooManyClauses
  | expectedNewLineAfterHeader (vars clauses : Nat)
  | eofInComment
  | expectedDigitAfterMinus
  | expectedNumber
  | moreClausesThanSpecified
  | invalidDigitAfterZeroNumber
  | numberWayTooLarge
  | numberTooLarge
  | unexpectedCharAfter (lit : Int)
  | literalExceedsMaxVar (lit : Int) (vars : Nat)
  | terminatingZeroMissing (lit : Int)
  | singleClauseMissing
  | clausesMissing (missing : Nat)
  | outOfFuel
deriving Repr, DecidableEq

/-- A fatal parse error: the line number reported by `parse_error` together
with the message tag. -/
structure PErr where
  lineno : Nat
  msg : Msg
deriving Repr, DecidableEq

/-- The function `next` of `main.c`: read one character, squeeze out a
carriage return (which must be followed by a newline), maintain the line
and byte counts.  `none` models `EOF`. -/
def next (st : St) : Except PErr (Option Char × St) :=
  match st.input with
  | [] => .ok (none, st)
  | c :: rest =>
    if c = '\r' then
      match rest with
      | '\n' :: rest2 => .ok (some '\n', ⟨rest2, st.lineno + 1, st.bytes + 2⟩)
      | _ => .error ⟨st.lineno, .expectedNewLineAfterCR⟩
    else if c = '\n' then
      .ok (some '\n', ⟨rest, st.lineno + 1, st.bytes + 1⟩)
    else
      .ok (some c, ⟨rest, st.lineno, st.bytes + 1⟩)

/-- The loops `while ((ch = next ()) != '\n') if (ch == EOF) parse_error (...)`
consuming the rest of a comment line; the message distinguishes the header
comment loop from the body comment loop. -/
def skipToNewline (m : Msg) : Nat → St → Except PErr St
  | 0, st => .error ⟨st.lineno, .outOfFuel⟩
  | fuel + 1, st =>
    match next st with
    | .error e => .error e
    | .ok (some c, st') => if c = '\n' then .ok st' else skipToNewline m fuel st'
    | .ok (none, st') => .error ⟨st'.lineno, m⟩

/-- The leading loop of `parse`: `while ((ch = next ()) == 'c')` consuming
full comment lines, returning the first character after them. -/
def skipHeaderComments : Nat → St → Except PErr (Option Char × St)
  | 0, st => .error ⟨st.lineno, .outOfFuel⟩
  | fuel + 1, st =>
    match next st with
    | .error e => .error e
    | .ok (some c, st') =>
      if c = 'c' then
        match skipToNewline .eofInHeaderComment (st'.input.length + 1) st' with
        | .error e => .error e
        | .ok st'' => skipHeaderComments fuel st''
      else .ok (some c, st')
    | .ok (none, st') => .ok (none, st')

/-- One `if (next () != c) parse_error (...)` step of the header parsing. -/
def expectChar (c : Char) (m : Msg) (st : St) : Except PErr St :=
  match next st with
  | .error e => .error e
  | .ok (oc, st') => if oc = some c then .ok st' else .error ⟨st'.lineno, m⟩

/-- The loops `while ((ch = next ()) == ' ' || ch == '\t')` of the header. -/
def skipBlanks : Nat → St → Except PErr (Option Char × St)
  | 0, st => .error ⟨st.lineno, .outOfFuel⟩
  | fuel + 1, st =>
    match next st with
    | .error e => .error e
    | .ok (oc, st') =>
      if oc = some ' ' ∨ oc = some '\t' then skipBlanks fuel st'
      else .ok (oc, st')

/-- Numeric value of a digit character, `ch - '0'` in C. -/
def digitVal (c : Char) : Nat := c.toNat - 48

/-- The digit-accumulation loops of `parse` (`while (isdigit (ch = next ())) ...`),
shared by the maximum-variable, clause-count and literal parsing which differ
only in the overflow bound and the three error messages: a digit following an
accumulated `0`, the `bound / 10 < v` guard, and the `bound - digit < 10 * v`
guard (checked in this order, exactly as in the C code). -/
def parseNumLoop (bound : Nat) (mzero mway mbig : Msg) :
    Nat → Nat → St → Except PErr (Nat × Option Char × St)
  | 0, _, st => .error ⟨st.lineno, .outOfFuel⟩
  | fuel + 1, v, st =>
    match next st with
    | .error e => .error e
    | .ok (some c, st') =>
      if c.isDigit then
        if v = 0 then .error ⟨st'.lineno, mzero⟩
        else if bound / 10 < v then .error ⟨st'.lineno, mway⟩
        else if bound - digitVal c < 10 * v then .error ⟨st'.lineno, mbig⟩
        else parseNumLoop bound mzero mway mbig fuel (10 * v + digitVal c) st'
      else .ok (v, some c, st')
    | .ok (none, st') => .ok (v, none, st')

/-- The part of the header parsing after the literal prefix `p cnf ` has
been consumed: optional blanks, the declared maximum variable (guarded by
`INT_MAX`), one mandatory space, optional blanks, the declared clause count
(guarded by the maximum of `size_t`), optional trailing blanks and the
terminating newline.  Returns the two declared counts and the state at the
start of the clause body. -/
def parseHeaderCounts (st6 : St) : Except PErr (Nat × Nat × St) :=
  match skipBlanks (st6.input.length + 1) st6 with
              | .error e => .error e
              | .ok (oc7, st7) =>
                match oc7 with
                | none => .error ⟨st7.lineno, .expectedDigitAfterPCNF⟩
                | some c7 =>
                  if ¬ c7.isDigit then .error ⟨st7.lineno, .expectedDigitAfterPCNF⟩ else
                  match parseNumLoop INT_MAX .invalidDigitAfterZeroMaxVar
                      .maxVarWayTooBig .maxVarTooBig
                      (st7.input.length + 1) (digitVal c7) st7 with
                  | .error e => .error e
                  | .ok (vars, oc8, st8) =>
                    if oc8 ≠ some ' ' then .error ⟨st8.lineno, .expectedSpaceAfterVars vars⟩ else
                    match skipBlanks (st8.input.length + 1) st8 with
                    | .error e => .error e
                    | .ok (oc9, st9) =>
                      match oc9 with
                      | none => .error ⟨st9.lineno, .expectedDigitAfterVars vars⟩
                      | some c9 =>
                        if ¬ c9.isDigit then .error ⟨st9.lineno, .expectedDigitAfterVars vars⟩ else
                        match parseNumLoop MAX_SIZE_T .invalidDigitAfterZeroClauses
                            .wayTooManyClauses .tooManyClauses
                            (st9.input.length + 1) (digitVal c9) st9 with
                        | .error e => .error e
                        | .ok (clauses, oc10, st10) =>
                          if oc10 = some ' ' ∨ oc10 = some '\t' then
                            match skipBlanks (st10.input.length + 1) st10 with
                            | .error e => .error e
                            | .ok (oc11, st11) =>
                              if oc11 = some '\n' then .ok (vars, clauses, st11)
                              else .error ⟨st11.lineno, .expectedNewLineAfterHeader vars clauses⟩
                          else if oc10 = some '\n' then .ok (vars, clauses, st10)
                          else .error ⟨st10.lineno, .expectedNewLineAfterHeader vars clauses⟩

/-- Header parsing part of `parse` in `main.c`: leading comments, the
literal sequence `p cnf ` (each mismatch a distinct fatal error), then the
two declared counts via `parseHeaderCounts`. -/
def parseHeader (input : List Char) : Except PErr (Nat × Nat × St) :=
  match skipHeaderComments (input.length + 1) ⟨input, 1, 0⟩ with
  | .error e => .error e
  | .ok (oc, st1) =>
    if oc ≠ some 'p' then .error ⟨st1.lineno, .expectedPorC⟩ else
    match expectChar ' ' .expectedSpaceAfterP st1 with
    | .error e => .error e
    | .ok st2 =>
      match expectChar 'c' .expectedCAfterP st2 with
      | .error e => .error e
      | .ok st3 =>
        match expectChar 'n' .expectedNAfterPC st3 with
        | .error e => .error e
        | .ok st4 =>
          match expectChar 'f' .expectedFAfterPCN st4 with
          | .error e => .error e
          | .ok st5 =>
            match expectChar ' ' .expectedSpaceAfterPCNF st5 with
            | .error e => .error e
            | .ok st6 => parseHeaderCounts st6

/-- Result of the clause-body loop: the literals passed to `satch_add` in
order (including terminating zeros), the number of terminated clauses, the
last parsed literal (the C variable `lit`, initially `0`), and the final
state. -/
structure BodyOk where
  adds : List Int
  parsedClauses : Nat
  lastLit : Int
  final : St
deriving Repr, DecidableEq

/-- The `for (;;)` clause-body loop of `parse`: skip whitespace, break at
end of file, consume comments, otherwise read a signed literal with the same
overflow guard as the header, reject it when a clause beyond the declared
count would start or when its magnitude exceeds the declared maximum
variable, record it (the call to `satch_add`), and resume comment handling
directly when a `c` immediately follows the literal (the `goto COMMENT` of
the C code). -/
def bodyLoop (vars specified : Nat) :
    Nat → Nat → Int → List Int → St → Except PErr BodyOk
  | 0, _, _, _, st => .error ⟨st.lineno, .outOfFuel⟩
  | fuel + 1, parsed, lastLit, adds, st =>
    match next st with
    | .error e => .error e
    | .ok (none, st') => .ok ⟨adds, parsed, lastLit, st'⟩
    | .ok (some c, st') =>
      if c = ' ' ∨ c = '\t' ∨ c = '\n' then
        bodyLoop vars specified fuel parsed lastLit adds st'
      else if c = 'c' then
        match skipToNewline .eofInComment (st'.input.length + 1) st' with
        | .error e => .error e
        | .ok st'' => bodyLoop vars specified fuel parsed lastLit adds st''
      else
        match (if c = '-' then
                match next st' with
                | .error e => .error e
                | .ok (some d, st2) =>
                  if d.isDigit then .ok ((-1 : Int), d, st2)
                  else .error ⟨st2.lineno, .expectedDigitAfterMinus⟩
                | .ok (none, st2) => .error ⟨st2.lineno, .expectedDigitAfterMinus⟩
              else if c.isDigit then .ok ((1 : Int), c, st')
              else .error ⟨st'.lineno, .expectedNumber⟩ :
                Except PErr (Int × Char × St)) with
        | .error e => .error e
        | .ok (sign, d0, st2) =>
          if parsed = specified then .error ⟨st2.lineno, .moreClausesThanSpecified⟩
          else
            match parseNumLoop INT_MAX .invalidDigitAfterZeroNumber
                .numberWayTooLarge .numberTooLarge
                (st2.input.length + 1) (digitVal d0) st2 with
            | .error e => .error e
            | .ok (mag, oc2, st3) =>
              let slit : Int := sign * (mag : Int)
              if oc2 ≠ some ' ' ∧ oc2 ≠ some '\t' ∧ oc2 ≠ some '\n' ∧ oc2 ≠ some 'c' then
                .error ⟨st3.lineno, .unexpectedCharAfter slit⟩
              else if vars < slit.natAbs then
                .error ⟨st3.lineno, .literalExceedsMaxVar slit vars⟩
              else
                let parsed' := if slit = 0 then parsed + 1 else parsed
                if oc2 = some 'c' then
                  match skipToNewline .eofInComment (st3.input.length + 1) st3 with
                  | .error e => .error e
                  | .ok st4 => bodyLoop vars specified fuel parsed' slit (adds ++ [slit]) st4
                else bodyLoop vars specified fuel parsed' slit (adds ++ [slit]) st3

/-- Clause-body parsing: run the body loop from the post-header state and
apply the end-of-stream checks of `parse`: a pending non-zero literal is
fatal, and fewer terminated clauses than declared is fatal with a
distinguished message for exactly one missing clause. -/
def parseBody (vars specified : Nat) (st : St) : Except PErr BodyOk :=
  match bodyLoop vars specified (st.input.length + 1) 0 0 [] st with
  | .error e => .error e
  | .ok r =>
    if r.lastLit ≠ 0 then .error ⟨r.final.lineno, .terminatingZeroMissing r.lastLit⟩
    else if r.parsedClauses < specified then
      if r.parsedClauses + 1 = specified then .error ⟨r.final.lineno, .singleClauseMissing⟩
      else .error ⟨r.final.lineno, .clausesMissing (specified - r.parsedClauses)⟩
    else .ok r

/-- Successful result of the whole DIMACS parser. -/
structure ParseOk where
  vars : Nat
  specifiedClauses : Nat
  adds : List Int
  parsedClauses : Nat
  final : St
deriving Repr, DecidableEq

/-- The function `parse` of `main.c`: header then clause body over one input
character stream, starting at line 1 with zero bytes read. -/
def parse (input : List Char) : Except PErr ParseOk :=
  match parseHeader input with
  | .error e => .error e
  | .ok (vars, specified, st) =>
    match parseBody vars specified st with
    | .error e => .error e
    | .ok r => .ok ⟨vars, specified, r.adds, r.parsedClauses, r.final⟩

/-! ### Decimal rendering

Decimal digit strings, used both to model the `sprintf (tmp, " %d", lit)`
of the witness printer and to build well-formed DIMACS inputs. -/

/-- Character of a decimal digit. -/
def digitChar (d : Nat) : Char := Char.ofNat (48 + d)

/-- Decimal rendering of a natural number, most significant digit first. -/
def natChars (n : Nat) : List Char :=
  if n = 0 then ['0'] else (Nat.digits 10 n).reverse.map digitChar

/-- Decimal rendering of an integer, with a leading minus sign when negative
(what `sprintf` with format `%d` produces). -/
def intChars (i : Int) : List Char :=
  if i < 0 then '-' :: natChars i.natAbs else natChars i.natAbs

/-! ### Witness pretty-printer

Model of `flush_printed_values` and `print_value` of `main.c`.  The byte
array `buffer` with its length `size_buffer` becomes a character list, and
the lines written to `stdout` are collected in order in `lines`; each
recorded line contains every character of the line except the final
newline, i.e. the leading `v` followed by the buffer contents. -/

/-- State of the witness printer: the line buffer and the lines emitted so
far. -/
structure Printer where
  buffer : List Char
  lines : List (List Char)
deriving Repr, DecidableEq

/-- The function `flush_printed_values`: do nothing on an empty buffer,
otherwise print `v`, the buffer and a newline, and reset the buffer. -/
def flush_printed_values (p : Printer) : Printer :=
  if p.buffer = [] then p
  else ⟨[], p.lines ++ [('v' :: p.buffer)]⟩

/-- The function `print_value`: render the value as `sprintf " %d"` does,
flush first if appending would push the rendered line (with its `v` prefix)
past 78 characters (`size_buffer + size_tmp > 77`), then append. -/
def print_value (lit : Int) (p : Printer) : Printer :=
  let tmp := ' ' :: intChars lit
  let p' := if 77 < p.buffer.length + tmp.length then flush_printed_values p else p
  ⟨p'.buffer ++ tmp, p'.lines⟩

/-- The witness-printing sequence of `main`: append each value in order
starting from an empty buffer, then flush the remainder once. -/
def printValues (vals : List Int) : Printer :=
  flush_printed_values (vals.foldl (fun p v => print_value v p) ⟨[], []⟩)

/-! ### Signal handling

Model of `catch_signal` / `reset_signal_handler` of `main.c`.  The watched
signals are the five of the `SIGNALS` macro, with their Linux numbers; the
observable effects of a delivery (printing the diagnostics, restoring the
saved handlers, re-raising) are recorded as counters and a list. -/

/-- The watched signals of the `SIGNALS` macro. -/
inductive Sig where
  | sigabrt
  | sigbus
  | sigint
  | sigsegv
  | sigterm
deriving Repr, DecidableEq

/-- Linux signal numbers of the watched signals. -/
def sigNum : Sig → Nat
  | .sigabrt => 6
  | .sigbus => 7
  | .sigint => 2
  | .sigsegv => 11
  | .sigterm => 15

/-- Process-wide signal-handler state: the flag `caught_signal` (0 when no
signal has been caught yet), the `quiet` mode, and the observable effects:
how often the diagnostics were printed, how often the saved handlers were
restored, and the signals re-raised via `raise`. -/
structure SigState where
  caught_signal : Nat
  quiet : Bool
  printed : Nat
  restored : Nat
  raised : List Nat
deriving Repr, DecidableEq

/-- State at startup, after `init_signal_handler`. -/
def initialSigState (quiet : Bool) : SigState := ⟨0, quiet, 0, 0, []⟩

/-- The handler `catch_signal`: return immediately when a signal was already
caught, otherwise record the signal, print diagnostics unless quiet, restore
the saved handlers (`reset_signal_handler`) and re-raise the same signal. -/
def catch_signal (sig : Sig) (s : SigState) : SigState :=
  if s.caught_signal ≠ 0 then s
  else
    ⟨sigNum sig, s.quiet,
      s.printed + (if s.quiet then 0 else 1),
      s.restored + 1,
      s.raised ++ [sigNum sig]⟩

/-- Effect of delivering a sequence of watched signals to the handler. -/
def deliverSignals (quiet : Bool) (sigs : List Sig) : SigState :=
  sigs.foldl (fun s sig => catch_signal sig s) (initialSigState quiet)

/-! ### Command-line argument handling

Model of the option loop and the flag-combination checks of `main`.  The
parameter `loggingAvail` distinguishes the build with logging support
(`NDEBUG` undefined) from the one without. -/

/-- Tags for the fatal configuration errors of `main` (each reported by
`error`, which exits with status 1). -/
inductive CfgMsg where
  | noLoggingSupport
  | invalidOption (arg : String)
  | multipleFiles (path arg : String)
  | quietLog
  | quietVerbose
deriving Repr, DecidableEq

/-- The configuration accumulated by the option loop of `main`. -/
structure Config where
  witness : Bool
  quiet : Bool
  verbose : Nat
  logging : Bool
  path : Option String
deriving Repr, DecidableEq

/-- Initial configuration: witness printing on, not quiet, verbosity 1,
logging off, no path. -/
def initialConfig : Config := ⟨true, false, 1, false, none⟩

/-- Outcome of argument processing: immediate `exit (0)` for help/version,
a fatal configuration error (`exit (1)`), or a configuration to run with. -/
inductive ArgsResult where
  | exit0
  | error1 (m : CfgMsg)
  | ok (cfg : Config)
deriving Repr, DecidableEq

/-- The argument loop of `main`, processed left to right. -/
def parseArgsLoop (loggingAvail : Bool) : List String → Config → ArgsResult
  | [], cfg => .ok cfg
  | arg :: rest, cfg =>
    if arg = "-h" then .exit0
    else if arg = "--version" then .exit0
    else if arg = "-n" ∨ arg = "--no-witness" then
      parseArgsLoop loggingAvail rest ⟨false, cfg.quiet, cfg.verbose, cfg.logging, cfg.path⟩
    else if arg = "-q" ∨ arg = "--quiet" then
      parseArgsLoop loggingAvail rest ⟨cfg.witness, true, cfg.verbose, cfg.logging, cfg.path⟩
    else if arg = "-v" ∨ arg = "--verbose" then
      parseArgsLoop loggingAvail rest
        ⟨cfg.witness, cfg.quiet,
          cfg.verbose + (if cfg.verbose < INT_MAX then 1 else 0), cfg.logging, cfg.path⟩
    else if arg = "-l" ∨ arg = "--log" then
      if loggingAvail then
        parseArgsLoop loggingAvail rest ⟨cfg.witness, cfg.quiet, cfg.verbose, true, cfg.path⟩
      else .error1 .noLoggingSupport
    else if arg.startsWith "-" then .error1 (.invalidOption arg)
    else
      match cfg.path with
      | some p => .error1 (.multipleFiles p arg)
      | none =>
        parseArgsLoop loggingAvail rest ⟨cfg.witness, cfg.quiet, cfg.verbose, cfg.logging, some arg⟩

/-- The flag-combination checks performed by `main` right after the option
loop: quiet together with logging (in builds with logging support) is
fatal, then quiet together with elevated verbosity is fatal. -/
def checkConfig (loggingAvail : Bool) (cfg : Config) : ArgsResult :=
  if loggingAvail ∧ cfg.quiet ∧ cfg.logging then .error1 .quietLog
  else if cfg.quiet ∧ 1 < cfg.verbose then .error1 .quietVerbose
  else .ok cfg

/-- Argument processing of `main`: the option loop followed by the
combination checks. -/
def configure (loggingAvail : Bool) (args : List String) : ArgsResult :=
  match parseArgsLoop loggingAvail args initialConfig with
  | .ok cfg => checkConfig loggingAvail cfg
  | r => r

/-- Process exit status determined by argument processing alone: 0 for
help/version, 1 for a configuration error, none when the run continues. -/
def exitStatus : ArgsResult → Option Nat
  | .exit0 => some 0
  | .error1 _ => some 1
  | .ok _ => none

/-! ### Well-formed DIMACS inputs

A structured description of the inputs accepted by the grammar of `parse`,
with a rendering function to character streams.  All the freedom the
grammar leaves is represented: leading comment lines, extra blanks around
the header counts, the choice of whitespace between body tokens (space,
tab, newline, carriage return + newline), inline comments, and comments
starting immediately after a literal without intervening whitespace. -/

/-- A single whitespace separator of the clause body. -/
inductive Ws where
  | sp
  | tab
  | nl
  | crlf
deriving Repr, DecidableEq

/-- Characters of a whitespace separator. -/
def Ws.render : Ws → List Char
  | .sp => [' ']
  | .tab => ['\t']
  | .nl => ['\n']
  | .crlf => ['\r', '\n']

/-- One element of the clause body: a literal token, one whitespace
character, or a comment extending to the end of its line. -/
inductive BodyElem where
  | lit (l : Int)
  | ws (w : Ws)
  | comment (text : List Char)
deriving Repr, DecidableEq

/-- Characters of a body element. -/
def BodyElem.render : BodyElem → List Char
  | .lit l => intChars l
  | .ws w => w.render
  | .comment t => 'c' :: (t ++ ['\n'])

/-- Characters of a clause body. -/
def renderBody (elems : List BodyElem) : List Char :=
  (elems.map BodyElem.render).flatten

/-- Characters of one leading comment line. -/
def renderComment (t : List Char) : List Char := 'c' :: (t ++ ['\n'])

/-- Characters of the header: comment lines, the fixed prefix `p cnf `,
optional extra blanks, the variable count, the mandatory space, optional
blanks, the clause count, optional trailing blanks, and the newline. -/
def renderHeader (hcs : List (List Char)) (pre1 : List Char) (vars : Nat)
    (pre2 : List Char) (clauses : Nat) (post : List Char) : List Char :=
  (hcs.map renderComment).flatten
    ++ ('p' :: ' ' :: 'c' :: 'n' :: 'f' :: ' ' :: [])
    ++ pre1 ++ natChars vars ++ [' ']
    ++ pre2 ++ natChars clauses ++ post ++ ['\n']

/-- A structured DIMACS problem description. -/
structure Dimacs where
  headerComments : List (List Char)
  preVars : List Char
  vars : Nat
  preClauses : List Char
  clauses : Nat
  postClauses : List Char
  body : List BodyElem
deriving Repr, DecidableEq

/-- The character stream of a structured DIMACS description. -/
def Dimacs.render (d : Dimacs) : List Char :=
  renderHeader d.headerComments d.preVars d.vars d.preClauses d.clauses d.postClauses
    ++ renderBody d.body

/-- Comment text that stays on its line: no newline and no carriage
return. -/
abbrev cleanText (t : List Char) : Prop := ∀ c ∈ t, c ≠ '\n' ∧ c ≠ '\r'

/-- Lists of horizontal blanks. -/
abbrev blanksOnly (t : List Char) : Prop := ∀ c ∈ t, c = ' ' ∨ c = '\t'

/-- The literal tokens of a body, in order. -/
def litsOf (elems : List BodyElem) : List Int :=
  elems.filterMap fun e =>
    match e with
    | .lit l => some l
    | _ => none

/-- Number of clause-terminating zeros among the body literals. -/
def zerosOf (elems : List BodyElem) : Nat := (litsOf elems).count 0

/-- The last literal of a body, or the given default when it has none
(models the C variable `lit` surviving the body loop). -/
def lastLitOf (elems : List BodyElem) (ll : Int) : Int :=
  ((litsOf elems).getLast?).getD ll

/-- Every literal token is immediately followed by whitespace or by a
comment (possibly with no separation, as in `1c comment`); in particular no
literal is last, so no literal runs into the end of the stream. -/
def sepOK : List BodyElem → Bool
  | [] => true
  | .lit _ :: rest =>
    (match rest with
     | .ws _ :: _ => true
     | .comment _ :: _ => true
     | _ => false) && sepOK rest
  | .ws _ :: rest => sepOK rest
  | .comment _ :: rest => sepOK rest

/-- Comment texts of a body stay on their lines. -/
abbrev bodyClean (elems : List BodyElem) : Prop :=
  ∀ t, BodyElem.comment t ∈ elems → cleanText t

/-- All body literals are within the declared variable range. -/
abbrev litsBounded (vars : Nat) (elems : List BodyElem) : Prop :=
  ∀ l, BodyElem.lit l ∈ elems → l.natAbs ≤ vars

/-- The body ends in a complete clause: its last literal, if any, is the
terminating zero. -/
abbrev bodyTerminated (elems : List BodyElem) : Prop :=
  litsOf elems = [] ∨ (litsOf elems).getLast? = some 0

/-- Well-formedness of a structured DIMACS description, except for the
relation between the declared clause count and the body (used to state both
the success case and the too-few-clauses failure case). -/
abbrev Dimacs.WFpre (d : Dimacs) : Prop :=
  d.vars ≤ INT_MAX ∧ d.clauses ≤ MAX_SIZE_T ∧
  (∀ t ∈ d.headerComments, cleanText t) ∧
  blanksOnly d.preVars ∧ blanksOnly d.preClauses ∧ blanksOnly d.postClauses ∧
  sepOK d.body = true ∧ bodyClean d.body ∧ litsBounded d.vars d.body ∧
  bodyTerminated d.body

/-- Full well-formedness: additionally the body terminates exactly the
declared number of clauses. -/
abbrev Dimacs.WF (d : Dimacs) : Prop :=
  d.WFpre ∧ zerosOf d.body = d.clauses

/-! ### Auxiliary definitions used by the correctness statements -/

/-- Value accumulated by the digit loops when fed the digits `ds` starting
from `v` (left-to-right decimal accumulation). -/
def valFrom (v : Nat) (ds : List Nat) : Nat := ds.foldl (fun a d => 10 * a + d) v

/-- Number of characters of the rendered leading comment lines. -/
def commentsSize (cs : List (List Char)) : Nat := (cs.map fun t => t.length + 2).sum

/-- Number of newline characters produced by a rendered body element. -/
def BodyElem.nlOf : BodyElem → Nat
  | .lit _ => 0
  | .ws .nl => 1
  | .ws .crlf => 1
  | .ws _ => 0
  | .comment _ => 1

/-- Number of newline characters in a rendered body. -/
def nlCount (elems : List BodyElem) : Nat := (elems.map BodyElem.nlOf).sum

/-- A body consisting of `m` clauses, each a single terminating zero on its
own line (renders as `m` copies of the two characters `0` and newline). -/
def zeroClauses (m : Nat) : List BodyElem :=
  (List.replicate m [BodyElem.lit 0, BodyElem.ws .nl]).flatten

/-- The characters `sprintf (tmp, " %d", v)` places into `tmp`. -/
def tmpOf (v : Int) : List Char := ' ' :: intChars v

/-- A value representable in a signed 32-bit integer. -/
abbrev Int32 (v : Int) : Prop := -2147483648 ≤ v ∧ v < 2147483648

/-- Invariant of the witness printer: the buffer never holds more than 77
characters and every emitted line is a `v`-prefixed line of at most 78
characters. -/
abbrev printerInv (p : Printer) : Prop :=
  p.buffer.length ≤ 77 ∧ ∀ l ∈ p.lines, l.length ≤ 78 ∧ l.head? = some 'v'

/-- All characters appended so far and not yet dropped: the emitted lines
without their `v` prefixes, followed by the current buffer. -/
def content (p : Printer) : List Char :=
  (p.lines.map fun l => l.drop 1).flatten ++ p.buffer

/-! ## Basic lemmas about the character reader and decimal digits -/

theorem next_nil (ln b : Nat) : next ⟨[], ln, b⟩ = .ok (none, ⟨[], ln, b⟩) := rfl

theorem next_cons_nl (r : List Char) (ln b : Nat) :
    next ⟨'\n' :: r, ln, b⟩ = .ok (some '\n', ⟨r, ln + 1, b + 1⟩) := by
  simp [next]

theorem next_cons_crlf (r : List Char) (ln b : Nat) :
    next ⟨'\r' :: '\n' :: r, ln, b⟩ = .ok (some '\n', ⟨r, ln + 1, b + 2⟩) := by
  simp [next]

theorem next_cons_other (c : Char) (r : List Char) (ln b : Nat)
    (h1 : c ≠ '\r') (h2 : c ≠ '\n') :
    next ⟨c :: r, ln, b⟩ = .ok (some c, ⟨r, ln, b + 1⟩) := by
  simp [next, h1, h2]

theorem next_some_char {st : St} {c : Char} {st' : St}
    (h : next st = .ok (some c, st')) : st.input.head? = some c ∨ c = '\n' := by
  rcases st with ⟨input, ln, b⟩
  cases input with
  | nil => simp [next] at h
  | cons a r =>
    by_cases ha : a = '\r'
    · subst ha
      cases r with
      | nil => simp [next] at h
      | cons a2 r2 =>
        by_cases ha2 : a2 = '\n'
        · subst ha2
          rw [next_cons_crlf] at h
          simp at h
          exact Or.inr h.1.symm
        · simp [next, ha2] at h
    · by_cases ha2 : a = '\n'
      · subst ha2
        rw [next_cons_nl] at h
        simp at h
        exact Or.inr h.1.symm
      · rw [next_cons_other a r ln b ha ha2] at h
        simp at h
        exact Or.inl (by simp [h.1])

theorem digitChar_spec {d : Nat} (h : d < 10) :
    (digitChar d).isDigit = true ∧ digitVal (digitChar d) = d ∧
    digitChar d ≠ '\r' ∧ digitChar d ≠ '\n' ∧ digitChar d ≠ ' ' ∧
    digitChar d ≠ '\t' ∧ digitChar d ≠ 'c' ∧ digitChar d ≠ '-' := by
  interval_cases d <;> decide

theorem digitVal_le_of_isDigit {c : Char} (h : c.isDigit = true) : digitVal c ≤ 9 := by
  simp [Char.isDigit, decide_eq_true_iff] at h
  have h57 : c.val.toNat ≤ 57 := by
    rcases c with ⟨v, hv⟩
    simpa [UInt32.le_def, BitVec.le_def] using h.2
  simp [digitVal, Char.toNat]
  omega

theorem valFrom_nil (v : Nat) : valFrom v [] = v := rfl

theorem valFrom_cons (v d : Nat) (ds : List Nat) :
    valFrom v (d :: ds) = valFrom (10 * v + d) ds := rfl

theorem valFrom_le (v : Nat) (ds : List Nat) : v ≤ valFrom v ds := by
  induction ds generalizing v with
  | nil => exact Nat.le_refl v
  | cons d ds ih =>
    rw [valFrom_cons]
    exact Nat.le_trans (by omega) (ih (10 * v + d))

theorem valFrom_reverse (l : List Nat) (v : Nat) :
    valFrom v l.reverse = v * 10 ^ l.length + Nat.ofDigits 10 l := by
  induction l generalizing v with
  | nil => simp [valFrom, Nat.ofDigits]
  | cons d t ih =>
    rw [List.reverse_cons]
    have happ : valFrom v (t.reverse ++ [d]) = 10 * valFrom v t.reverse + d := by
      unfold valFrom
      rw [List.foldl_append]
      rfl
    rw [happ, ih, Nat.ofDigits_cons]
    simp only [List.length_cons, pow_succ]
    ring

theorem natChars_decomp (n : Nat) :
    ∃ d ds, natChars n = digitChar d :: ds.map digitChar ∧ d < 10 ∧
      (∀ x ∈ ds, x < 10) ∧ valFrom d ds = n ∧ (d = 0 → ds = []) := by
  by_cases h : n = 0
  · subst h
    exact ⟨0, [], rfl, by omega, by simp, rfl, fun _ => rfl⟩
  · have hne : Nat.digits 10 n ≠ [] := Nat.digits_ne_nil_iff_ne_zero.mpr h
    have hrne : (Nat.digits 10 n).reverse ≠ [] := by simpa using hne
    obtain ⟨d, ds, hds⟩ := List.exists_cons_of_ne_nil hrne
    have hmem : ∀ x ∈ d :: ds, x < 10 := by
      intro x hx
      rw [← hds] at hx
      exact Nat.digits_lt_base (by norm_num) (List.mem_reverse.mp hx)
    have hval : valFrom d ds = n := by
      have h0 : valFrom 0 (Nat.digits 10 n).reverse = n := by
        rw [valFrom_reverse]
        simp [Nat.ofDigits_digits]
      rw [hds, valFrom_cons] at h0
      simpa using h0
    have hd0 : d ≠ 0 := by
      have hlast : (Nat.digits 10 n).getLast? = some d := by
        rw [← List.head?_reverse, hds]
        rfl
      rw [List.getLast?_eq_getLast _ hne] at hlast
      have hcast : (Nat.digits 10 n).getLast hne = d := Option.some.inj hlast
      rw [← hcast]
      exact Nat.getLast_digit_ne_zero 10 h
    refine ⟨d, ds, ?_, hmem d (by simp), fun x hx => hmem x (by simp [hx]), hval, fun hd => absurd hd hd0⟩
    rw [natChars, if_neg h, hds]
    rfl

theorem natChars_len_le {n k : Nat} (hn : n < 10 ^ k) (hk : 0 < k) :
    (natChars n).length ≤ k := by
  by_cases h : n = 0
  · subst h
    simpa [natChars] using hk
  · rw [natChars, if_neg h]
    simp only [List.length_map, List.length_reverse]
    rw [Nat.digits_len 10 n (by norm_num) h]
    have := (Nat.lt_pow_iff_log_lt (by norm_num : (1:Nat) < 10) h).mp hn
    omega

theorem commentsSize_ge (cs : List (List Char)) : cs.length ≤ commentsSize cs := by
  induction cs with
  | nil => simp [commentsSize]
  | cons t cs ih =>
    simp only [commentsSize, List.map_cons, List.sum_cons, List.length_cons] at *
    omega

theorem renderComments_length (cs : List (List Char)) :
    ((cs.map renderComment).flatten).length = commentsSize cs := by
  induction cs with
  | nil => simp [commentsSize]
  | cons t cs ih =>
    have h1 : commentsSize (t :: cs) = t.length + 2 + commentsSize cs := by
      simp [commentsSize]
    have h2 : (renderComment t).length = t.length + 2 := by
      simp [renderComment]
    simp only [List.map_cons, List.flatten_cons, List.length_append, ih, h1, h2]

/-! ## Evaluation lemmas for the parser loops on rendered input -/

theorem skipToNewline_clean (m : Msg) :
    ∀ (t : List Char) (fuel : Nat) (rest : List Char) (ln b : Nat),
      cleanText t → t.length < fuel →
      skipToNewline m fuel ⟨t ++ '\n' :: rest, ln, b⟩ = .ok ⟨rest, ln + 1, b + (t.length + 1)⟩ := by
  intro t
  induction t with
  | nil =>
    intro fuel rest ln b _ hfuel
    obtain ⟨f, rfl⟩ : ∃ f, fuel = f + 1 := ⟨fuel - 1, by omega⟩
    simp [skipToNewline, next_cons_nl]
  | cons c t ih =>
    intro fuel rest ln b hclean hfuel
    obtain ⟨f, rfl⟩ : ∃ f, fuel = f + 1 := ⟨fuel - 1, by omega⟩
    have hc := hclean c (by simp)
    simp only [List.cons_append, skipToNewline,
      next_cons_other c (t ++ '\n' :: rest) ln b hc.2 hc.1]
    rw [if_neg hc.1]
    rw [ih f rest ln (b + 1) (fun x hx => hclean x (by simp [hx])) (by simp at hfuel; omega)]
    have : b + 1 + (t.length + 1) = b + (t.length + 1 + 1) := by omega
    rw [this]
    rfl

theorem skipHeaderComments_render :
    ∀ (cs : List (List Char)) (fuel : Nat) (rest : List Char) (ln b : Nat),
      (∀ t ∈ cs, cleanText t) →
      (∀ c, rest.head? = some c → c ≠ 'c') →
      cs.length < fuel →
      skipHeaderComments fuel ⟨(cs.map renderComment).flatten ++ rest, ln, b⟩
        = next ⟨rest, ln + cs.length, b + commentsSize cs⟩ := by
  intro cs
  induction cs with
  | nil =>
    intro fuel rest ln b _ hrest hfuel
    obtain ⟨f, rfl⟩ : ∃ f, fuel = f + 1 := ⟨fuel - 1, by omega⟩
    simp only [List.map_nil, List.flatten_nil, List.nil_append, commentsSize, List.sum_nil,
      List.length_nil, Nat.add_zero]
    rcases hn : next ⟨rest, ln, b⟩ with e | ⟨oc, st'⟩
    · simp [skipHeaderComments, hn]
    · rcases oc with _ | c
      · simp [skipHeaderComments, hn]
      · have hc : c ≠ 'c' := by
          rcases next_some_char hn with hh | hh
          · exact hrest c hh
          · subst hh
            decide
        simp [skipHeaderComments, hn, hc]
  | cons t cs ih =>
    intro fuel rest ln b hclean hrest hfuel
    obtain ⟨f, rfl⟩ : ∃ f, fuel = f + 1 := ⟨fuel - 1, by omega⟩
    have hct := hclean t (by simp)
    simp only [List.map_cons, List.flatten_cons, renderComment]
    have hshape : ('c' :: (t ++ ['\n'])) ++ ((cs.map renderComment).flatten ++ rest)
        = 'c' :: (t ++ '\n' :: ((cs.map renderComment).flatten ++ rest)) := by
      simp
    rw [List.append_assoc, hshape]
    have hnext := next_cons_other 'c' (t ++ '\n' :: ((cs.map renderComment).flatten ++ rest))
      ln b (by decide) (by decide)
    have hskip := skipToNewline_clean .eofInHeaderComment t
      ((t ++ '\n' :: ((cs.map renderComment).flatten ++ rest)).length + 1)
      ((cs.map renderComment).flatten ++ rest) ln (b + 1) hct
      (by simp only [List.length_append, List.length_cons]; omega)
    simp only [skipHeaderComments, hnext, if_true, hskip]
    rw [ih f rest (ln + 1) (b + 1 + (t.length + 1)) (fun x hx => hclean x (by simp [hx])) hrest
      (by simp at hfuel; omega)]
    have h1 : ln + 1 + cs.length = ln + (cs.length + 1) := by omega
    have h2 : b + 1 + (t.length + 1) + commentsSize cs = b + (t.length + 2 + commentsSize cs) := by
      omega
    rw [h1, h2]
    simp [commentsSize]

theorem skipBlanks_render :
    ∀ (bl : List Char) (fuel : Nat) (rest : List Char) (ln b : Nat),
      blanksOnly bl →
      (∀ c, rest.head? = some c → c ≠ ' ' ∧ c ≠ '\t') →
      bl.length < fuel →
      skipBlanks fuel ⟨bl ++ rest, ln, b⟩ = next ⟨rest, ln, b + bl.length⟩ := by
  intro bl
  induction bl with
  | nil =>
    intro fuel rest ln b _ hrest hfuel
    obtain ⟨f, rfl⟩ : ∃ f, fuel = f + 1 := ⟨fuel - 1, by omega⟩
    simp only [List.nil_append, List.length_nil, Nat.add_zero]
    rcases hn : next ⟨rest, ln, b⟩ with e | ⟨oc, st'⟩
    · simp [skipBlanks, hn]
    · rcases oc with _ | c
      · simp [skipBlanks, hn]
      · have hc1 : c ≠ ' ' ∧ c ≠ '\t' := by
          rcases next_some_char hn with hh | hh
          · exact hrest c hh
          · subst hh
            exact ⟨by decide, by decide⟩
        simp [skipBlanks, hn, hc1.1, hc1.2]
  | cons c bl ih =>
    intro fuel rest ln b hbl hrest hfuel
    obtain ⟨f, rfl⟩ : ∃ f, fuel = f + 1 := ⟨fuel - 1, by omega⟩
    have hc := hbl c (by simp)
    have hne : c ≠ '\r' ∧ c ≠ '\n' := by
      rcases hc with h | h <;> subst h <;> exact ⟨by decide, by decide⟩
    simp only [List.cons_append, skipBlanks,
      next_cons_other c (bl ++ rest) ln b hne.1 hne.2]
    have hcond : some c = some ' ' ∨ some c = some '\t' := by
      rcases hc with h | h <;> simp [h]
    rw [if_pos hcond]
    rw [ih f rest ln (b + 1) (fun x hx => hbl x (by simp [hx])) hrest (by simp at hfuel; omega)]
    have : b + 1 + bl.length = b + (bl.length + 1) := by omega
    rw [this]
    rfl

theorem expectChar_cons (c : Char) (m : Msg) (r : List Char) (ln b : Nat)
    (h1 : c ≠ '\r') (h2 : c ≠ '\n') :
    expectChar c m ⟨c :: r, ln, b⟩ = .ok ⟨r, ln, b + 1⟩ := by
  simp [expectChar, next_cons_other c r ln b h1 h2]

theorem parseNumLoop_digits (bound : Nat) (m0 m1 m2 : Msg) :
    ∀ (ds : List Nat) (fuel v : Nat) (rest : List Char) (ln b : Nat),
      (∀ d ∈ ds, d < 10) → (v = 0 → ds = []) → valFrom v ds ≤ bound →
      (∀ c, rest.head? = some c → c.isDigit = false) →
      ds.length < fuel →
      parseNumLoop bound m0 m1 m2 fuel v ⟨ds.map digitChar ++ rest, ln, b⟩
        = (next ⟨rest, ln, b + ds.length⟩).map fun p => (valFrom v ds, p.1, p.2) := by
  intro ds
  induction ds with
  | nil =>
    intro fuel v rest ln b _ _ _ hrest hfuel
    obtain ⟨f, rfl⟩ : ∃ f, fuel = f + 1 := ⟨fuel - 1, by omega⟩
    simp only [List.map_nil, List.nil_append, List.length_nil, Nat.add_zero]
    rcases hn : next ⟨rest, ln, b⟩ with e | ⟨oc, st'⟩
    · simp [parseNumLoop, hn, Except.map]
    · rcases oc with _ | c
      · simp [parseNumLoop, hn, Except.map, valFrom]
      · have hc : c.isDigit = false := by
          rcases next_some_char hn with hh | hh
          · exact hrest c hh
          · subst hh
            decide
        simp [parseNumLoop, hn, hc, Except.map, valFrom]
  | cons d ds ih =>
    intro fuel v rest ln b hds hv0 hval hrest hfuel
    obtain ⟨f, rfl⟩ : ∃ f, fuel = f + 1 := ⟨fuel - 1, by omega⟩
    have hd := digitChar_spec (hds d (by simp))
    have hvne : v ≠ 0 := fun h => by simpa using hv0 h
    have hstep : 10 * v + d ≤ bound := by
      have := valFrom_le (10 * v + d) ds
      rw [valFrom_cons] at hval
      omega
    have hg1 : ¬ bound / 10 < v := by
      have : v ≤ bound / 10 := (Nat.le_div_iff_mul_le (by norm_num)).mpr (by omega)
      omega
    have hg2 : ¬ bound - digitVal (digitChar d) < 10 * v := by
      rw [hd.2.1]
      omega
    simp only [List.map_cons, List.cons_append, parseNumLoop,
      next_cons_other (digitChar d) (ds.map digitChar ++ rest) ln b hd.2.2.1 hd.2.2.2.1]
    rw [if_pos hd.1, if_neg hvne, if_neg hg1, if_neg hg2, hd.2.1]
    rw [ih f (10 * v + d) rest ln (b + 1) (fun x hx => hds x (by simp [hx]))
      (by omega) (by rwa [valFrom_cons] at hval) hrest (by simp at hfuel; omega)]
    rw [valFrom_cons]
    have : b + 1 + ds.length = b + (ds.length + 1) := by omega
    rw [this]
    rfl

theorem parseNumLoop_overflow (bound : Nat) (m0 m1 m2 : Msg) :
    ∀ (ds : List Nat) (fuel v : Nat) (rest : List Char) (ln b : Nat),
      (∀ d ∈ ds, d < 10) → v ≠ 0 → v ≤ bound → bound < valFrom v ds →
      ds.length < fuel →
      parseNumLoop bound m0 m1 m2 fuel v ⟨ds.map digitChar ++ rest, ln, b⟩ = .error ⟨ln, m1⟩ ∨
      parseNumLoop bound m0 m1 m2 fuel v ⟨ds.map digitChar ++ rest, ln, b⟩ = .error ⟨ln, m2⟩ := by
  intro ds
  induction ds with
  | nil =>
    intro fuel v rest ln b _ _ hle hlt _
    rw [valFrom_nil] at hlt
    omega
  | cons d ds ih =>
    intro fuel v rest ln b hds hvne hle hlt hfuel
    obtain ⟨f, rfl⟩ : ∃ f, fuel = f + 1 := ⟨fuel - 1, by omega⟩
    have hd := digitChar_spec (hds d (by simp))
    simp only [List.map_cons, List.cons_append, parseNumLoop,
      next_cons_other (digitChar d) (ds.map digitChar ++ rest) ln b hd.2.2.1 hd.2.2.2.1]
    rw [if_pos hd.1, if_neg hvne]
    by_cases hg1 : bound / 10 < v
    · rw [if_pos hg1]
      exact Or.inl rfl
    · rw [if_neg hg1]
      by_cases hg2 : bound - digitVal (digitChar d) < 10 * v
      · rw [if_pos hg2]
        exact Or.inr rfl
      · rw [if_neg hg2, hd.2.1]
        have hle10 : v ≤ bound / 10 := by omega
        have hmul : 10 * v ≤ bound := by
          have := (Nat.le_div_iff_mul_le (by norm_num : (0:Nat) < 10)).mp hle10
          omega
        refine ih f (10 * v + d) rest ln (b + 1) (fun x hx => hds x (by simp [hx]))
          (by omega) ?_ (by rwa [valFrom_cons] at hlt) (by simp at hfuel; omega)
        rw [hd.2.1] at hg2
        omega

theorem parseHeader_prefix (hcs : List (List Char)) (tail : List Char)
    (hclean : ∀ t ∈ hcs, cleanText t) :
    parseHeader ((hcs.map renderComment).flatten ++ ('p' :: ' ' :: 'c' :: 'n' :: 'f' :: ' ' :: tail))
      = parseHeaderCounts ⟨tail, hcs.length + 1, commentsSize hcs + 6⟩ := by
  have hlen : ((hcs.map renderComment).flatten).length = commentsSize hcs :=
    renderComments_length hcs
  have hsk := skipHeaderComments_render hcs
    (((hcs.map renderComment).flatten ++ ('p' :: ' ' :: 'c' :: 'n' :: 'f' :: ' ' :: tail)).length + 1)
    ('p' :: ' ' :: 'c' :: 'n' :: 'f' :: ' ' :: tail) 1 0 hclean
    (by intro c hc; simp at hc; subst hc; decide)
    (by
      have := commentsSize_ge hcs
      simp only [List.length_append, hlen, List.length_cons]
      omega)
  have hp := next_cons_other 'p' (' ' :: 'c' :: 'n' :: 'f' :: ' ' :: tail)
    (1 + hcs.length) (0 + commentsSize hcs) (by decide) (by decide)
  have e1 := expectChar_cons ' ' .expectedSpaceAfterP ('c' :: 'n' :: 'f' :: ' ' :: tail)
    (1 + hcs.length) (0 + commentsSize hcs + 1) (by decide) (by decide)
  have e2 := expectChar_cons 'c' .expectedCAfterP ('n' :: 'f' :: ' ' :: tail)
    (1 + hcs.length) (0 + commentsSize hcs + 1 + 1) (by decide) (by decide)
  have e3 := expectChar_cons 'n' .expectedNAfterPC ('f' :: ' ' :: tail)
    (1 + hcs.length) (0 + commentsSize hcs + 1 + 1 + 1) (by decide) (by decide)
  have e4 := expectChar_cons 'f' .expectedFAfterPCN (' ' :: tail)
    (1 + hcs.length) (0 + commentsSize hcs + 1 + 1 + 1 + 1) (by decide) (by decide)
  have e5 := expectChar_cons ' ' .expectedSpaceAfterPCNF tail
    (1 + hcs.length) (0 + commentsSize hcs + 1 + 1 + 1 + 1 + 1) (by decide) (by decide)
  simp only [parseHeader, hsk, hp, e1, e2, e3, e4, e5]
  norm_num
  congr 1
  simp only [St.mk.injEq]
  refine ⟨trivial, by omega, trivial⟩

theorem parseHeaderCounts_render (pre1 : List Char) (V : Nat) (pre2 : List Char)
    (M : Nat) (post : List Char) (rest : List Char) (ln b : Nat)
    (h2 : blanksOnly pre1) (h3 : blanksOnly pre2) (h4 : blanksOnly post)
    (hV : V ≤ INT_MAX) (hM : M ≤ MAX_SIZE_T) :
    ∃ st, parseHeaderCounts
        ⟨pre1 ++ (natChars V ++ (' ' :: (pre2 ++ (natChars M ++ (post ++ ('\n' :: rest)))))), ln, b⟩
      = .ok (V, M, st) ∧ st.input = rest ∧ st.lineno = ln + 1 := by
  obtain ⟨dV, dsV, hVeq, hdVlt, hdsVlt, hVval, hV0⟩ := natChars_decomp V
  obtain ⟨dM, dsM, hMeq, hdMlt, hdsMlt, hMval, hM0⟩ := natChars_decomp M
  obtain ⟨hVdig, hVdv, hVr, hVn, hVsp, hVtab, hVc, hVminus⟩ := digitChar_spec hdVlt
  obtain ⟨hMdig, hMdv, hMr, hMn, hMsp, hMtab, hMc, hMminus⟩ := digitChar_spec hdMlt
  have hs1 := skipBlanks_render pre1
    ((pre1 ++ (natChars V ++ (' ' :: (pre2 ++ (natChars M ++ (post ++ ('\n' :: rest))))))).length + 1)
    (natChars V ++ (' ' :: (pre2 ++ (natChars M ++ (post ++ ('\n' :: rest)))))) ln b h2
    (by
      intro c hc
      rw [hVeq] at hc
      simp at hc
      subst hc
      exact ⟨hVsp, hVtab⟩)
    (by simp only [List.length_append]; omega)
  have hn1 : next ⟨natChars V ++ (' ' :: (pre2 ++ (natChars M ++ (post ++ ('\n' :: rest))))),
        ln, b + pre1.length⟩
      = .ok (some (digitChar dV),
          ⟨List.map digitChar dsV ++ (' ' :: (pre2 ++ (natChars M ++ (post ++ ('\n' :: rest))))),
            ln, b + pre1.length + 1⟩) := by
    rw [hVeq, List.cons_append]
    exact next_cons_other (digitChar dV) _ ln (b + pre1.length) hVr hVn
  have hnum1 := parseNumLoop_digits INT_MAX .invalidDigitAfterZeroMaxVar
    .maxVarWayTooBig .maxVarTooBig dsV
    ((List.map digitChar dsV ++ (' ' :: (pre2 ++ (natChars M ++ (post ++ ('\n' :: rest)))))).length + 1)
    dV (' ' :: (pre2 ++ (natChars M ++ (post ++ ('\n' :: rest))))) ln (b + pre1.length + 1)
    hdsVlt hV0 (by rw [hVval]; exact hV)
    (by intro c hc; simp at hc; subst hc; decide)
    (by simp only [List.length_append, List.length_map, List.length_cons]; omega)
  have hn2 : next ⟨' ' :: (pre2 ++ (natChars M ++ (post ++ ('\n' :: rest)))),
        ln, b + pre1.length + 1 + dsV.length⟩
      = .ok (some ' ', ⟨pre2 ++ (natChars M ++ (post ++ ('\n' :: rest))),
          ln, b + pre1.length + 1 + dsV.length + 1⟩) :=
    next_cons_other ' ' _ ln (b + pre1.length + 1 + dsV.length) (by decide) (by decide)
  simp only [parseHeaderCounts, hs1, hn1, hVdig, hVdv, hnum1, hn2, Except.map, hVval,
    eq_self_iff_true, not_true, if_false, if_true, ne_eq]
  generalize b + pre1.length + 1 + dsV.length + 1 = b2
  have hs2 := skipBlanks_render pre2
    ((pre2 ++ (natChars M ++ (post ++ ('\n' :: rest)))).length + 1)
    (natChars M ++ (post ++ ('\n' :: rest))) ln b2 h3
    (by
      intro c hc
      rw [hMeq] at hc
      simp at hc
      subst hc
      exact ⟨hMsp, hMtab⟩)
    (by simp only [List.length_append]; omega)
  have hn3 : next ⟨natChars M ++ (post ++ ('\n' :: rest)), ln, b2 + pre2.length⟩
      = .ok (some (digitChar dM),
          ⟨List.map digitChar dsM ++ (post ++ ('\n' :: rest)), ln, b2 + pre2.length + 1⟩) := by
    rw [hMeq, List.cons_append]
    exact next_cons_other (digitChar dM) _ ln (b2 + pre2.length) hMr hMn
  have hpost : ∀ c, (post ++ ('\n' :: rest)).head? = some c → c.isDigit = false := by
    intro c hc
    cases post with
    | nil =>
      simp at hc
      subst hc
      decide
    | cons x post' =>
      simp at hc
      rcases h4 x (by simp) with h | h <;> (subst hc; subst h; decide)
  have hnum2 := parseNumLoop_digits MAX_SIZE_T .invalidDigitAfterZeroClauses
    .wayTooManyClauses .tooManyClauses dsM
    ((List.map digitChar dsM ++ (post ++ ('\n' :: rest))).length + 1)
    dM (post ++ ('\n' :: rest)) ln (b2 + pre2.length + 1)
    hdsMlt hM0 (by rw [hMval]; exact hM) hpost
    (by simp only [List.length_append, List.length_map, List.length_cons]; omega)
  simp only [hs2, hn3, hMdig, hMdv, hnum2, hMval, eq_self_iff_true, not_true, if_false,
    if_true, ne_eq]
  generalize hb3 : b2 + pre2.length + 1 + dsM.length = b3
  have hcnl : (some '\n' = some ' ' ∨ some '\n' = some '\t') = False := eq_false (by decide)
  cases post with
  | nil =>
    simp only [List.nil_append, next_cons_nl, Except.map, hcnl, if_false,
      eq_self_iff_true, if_true]
    exact ⟨_, rfl, rfl, rfl⟩
  | cons x post' =>
    have hx := h4 x (by simp)
    have hxr : x ≠ '\r' ∧ x ≠ '\n' := by
      rcases hx with h | h <;> subst h <;> exact ⟨by decide, by decide⟩
    have hn4 : next ⟨(x :: post') ++ ('\n' :: rest), ln, b3⟩
        = .ok (some x, ⟨post' ++ ('\n' :: rest), ln, b3 + 1⟩) := by
      rw [List.cons_append]
      exact next_cons_other x _ ln b3 hxr.1 hxr.2
    have hxcond : (some x = some ' ' ∨ some x = some '\t') = True := eq_true (by
      rcases hx with h | h <;> simp [h])
    have hs3 := skipBlanks_render post'
      ((post' ++ ('\n' :: rest)).length + 1) ('\n' :: rest) ln (b3 + 1)
      (fun y hy => h4 y (by simp [hy]))
      (by intro c hc; simp at hc; subst hc; exact ⟨by decide, by decide⟩)
      (by simp only [List.length_append, List.length_cons]; omega)
    simp only [hn4, Except.map, hxcond, if_true, hs3, next_cons_nl,
      eq_self_iff_true]
    exact ⟨_, rfl, rfl, rfl⟩

theorem parseHeader_render (hcs : List (List Char)) (pre1 : List Char) (V : Nat)
    (pre2 : List Char) (M : Nat) (post : List Char) (rest : List Char)
    (h1 : ∀ t ∈ hcs, cleanText t) (h2 : blanksOnly pre1) (h3 : blanksOnly pre2)
    (h4 : blanksOnly post) (hV : V ≤ INT_MAX) (hM : M ≤ MAX_SIZE_T) :
    ∃ st, parseHeader (renderHeader hcs pre1 V pre2 M post ++ rest)
      = .ok (V, M, st) ∧ st.input = rest ∧ st.lineno = hcs.length + 2 := by
  have hinput : renderHeader hcs pre1 V pre2 M post ++ rest
      = (hcs.map renderComment).flatten
        ++ ('p' :: ' ' :: 'c' :: 'n' :: 'f' :: ' '
          :: (pre1 ++ (natChars V ++ (' ' :: (pre2 ++ (natChars M ++ (post ++ ('\n' :: rest)))))))) := by
    simp [renderHeader]
  obtain ⟨st, hok, hin, hln⟩ := parseHeaderCounts_render pre1 V pre2 M post rest
    (hcs.length + 1) (commentsSize hcs + 6) h2 h3 h4 hV hM
  refine ⟨st, ?_, hin, by omega⟩
  rw [hinput, parseHeader_prefix hcs _ h1, hok]

/-! ## Lemmas about bodies and their rendering -/

theorem getLast?_cons_eq (a : Int) (L : List Int) :
    (a :: L).getLast? = some ((L.getLast?).getD a) := by
  induction L generalizing a with
  | nil => rfl
  | cons b t ih =>
    rw [List.getLast?_cons_cons, ih b]
    simp

theorem getLast?_mem {L : List Int} {a : Int} (h : L.getLast? = some a) : a ∈ L := by
  induction L with
  | nil => simp at h
  | cons b t ih =>
    cases t with
    | nil =>
      simp at h
      simp [h]
    | cons u v =>
      rw [List.getLast?_cons_cons] at h
      exact List.mem_cons_of_mem b (ih h)

theorem litsOf_cons_lit (l : Int) (es : List BodyElem) :
    litsOf (.lit l :: es) = l :: litsOf es := rfl

theorem litsOf_cons_ws (w : Ws) (es : List BodyElem) : litsOf (.ws w :: es) = litsOf es := rfl

theorem litsOf_cons_comment (t : List Char) (es : List BodyElem) :
    litsOf (.comment t :: es) = litsOf es := rfl

theorem zerosOf_cons_lit (l : Int) (es : List BodyElem) :
    zerosOf (.lit l :: es) = (if l = 0 then 1 else 0) + zerosOf es := by
  unfold zerosOf
  rw [litsOf_cons_lit, List.count_cons]
  by_cases h : l = 0
  · simp [h]
    omega
  · simp [h]

theorem zerosOf_cons_ws (w : Ws) (es : List BodyElem) : zerosOf (.ws w :: es) = zerosOf es := rfl

theorem zerosOf_cons_comment (t : List Char) (es : List BodyElem) :
    zerosOf (.comment t :: es) = zerosOf es := rfl

theorem lastLitOf_nil (ll : Int) : lastLitOf [] ll = ll := rfl

theorem lastLitOf_cons_ws (w : Ws) (es : List BodyElem) (ll : Int) :
    lastLitOf (.ws w :: es) ll = lastLitOf es ll := rfl

theorem lastLitOf_cons_comment (t : List Char) (es : List BodyElem) (ll : Int) :
    lastLitOf (.comment t :: es) ll = lastLitOf es ll := rfl

theorem lastLitOf_cons_lit (l : Int) (es : List BodyElem) (ll : Int) :
    lastLitOf (.lit l :: es) ll = lastLitOf es l := by
  unfold lastLitOf
  rw [litsOf_cons_lit, getLast?_cons_eq]
  rfl

theorem nlCount_nil : nlCount [] = 0 := rfl

theorem nlCount_cons (e : BodyElem) (es : List BodyElem) :
    nlCount (e :: es) = e.nlOf + nlCount es := by
  simp [nlCount]

theorem renderBody_nil : renderBody [] = [] := rfl

theorem renderBody_cons (e : BodyElem) (es : List BodyElem) :
    renderBody (e :: es) = e.render ++ renderBody es := by
  simp [renderBody]

theorem natChars_ne_nil (n : Nat) : natChars n ≠ [] := by
  obtain ⟨d, ds, h, _⟩ := natChars_decomp n
  rw [h]
  simp

theorem next_ws (w : Ws) (Z : List Char) (ln b : Nat) :
    ∃ c, (c = ' ' ∨ c = '\t' ∨ c = '\n') ∧
      next ⟨Ws.render w ++ Z, ln, b⟩
        = .ok (some c, ⟨Z, ln + BodyElem.nlOf (.ws w), b + (Ws.render w).length⟩) := by
  cases w with
  | sp => exact ⟨' ', by simp, next_cons_other ' ' Z ln b (by decide) (by decide)⟩
  | tab => exact ⟨'\t', by simp, next_cons_other '\t' Z ln b (by decide) (by decide)⟩
  | nl => exact ⟨'\n', by simp, next_cons_nl Z ln b⟩
  | crlf => exact ⟨'\n', by simp, next_cons_crlf Z ln b⟩

theorem sepOK_lit_cons {l : Int} {es : List BodyElem}
    (h : sepOK (.lit l :: es) = true) :
    ∃ e es2, es = e :: es2 ∧ ((∃ w, e = .ws w) ∨ (∃ t, e = .comment t)) ∧ sepOK es = true := by
  cases es with
  | nil => simp [sepOK] at h
  | cons e es2 =>
    cases e with
    | lit l2 => simp [sepOK] at h
    | ws w =>
      refine ⟨.ws w, es2, rfl, Or.inl ⟨w, rfl⟩, ?_⟩
      simpa [sepOK] using h
    | comment t =>
      refine ⟨.comment t, es2, rfl, Or.inr ⟨t, rfl⟩, ?_⟩
      simpa [sepOK] using h

theorem sepOK_cons_ws {w : Ws} {es : List BodyElem} :
    sepOK (.ws w :: es) = sepOK es := rfl

theorem sepOK_cons_comment {t : List Char} {es : List BodyElem} :
    sepOK (.comment t :: es) = sepOK es := rfl

theorem sep_head_not_digit (e : BodyElem)
    (he : (∃ w, e = .ws w) ∨ (∃ t, e = .comment t)) (Z : List Char) :
    ∀ x, (e.render ++ Z).head? = some x → x.isDigit = false := by
  rcases he with ⟨w, rfl⟩ | ⟨t, rfl⟩
  · cases w <;> (intro x hx; simp [BodyElem.render, Ws.render] at hx; subst hx; decide)
  · intro x hx
    simp [BodyElem.render] at hx
    subst hx
    decide

/-- Processing one literal token of the body followed by its separating
element (a whitespace character or a comment, possibly starting directly
after the last digit): the literal is decoded, checked and recorded, the
separator is consumed, and the loop continues right after it. -/
theorem bodyLoop_lit_step (vars specified : Nat) (f parsed : Nat) (ll l : Int)
    (adds : List Int) (sep : BodyElem)
    (hsepkind : (∃ w, sep = .ws w) ∨ (∃ t, sep = .comment t))
    (hsepcln : ∀ t, sep = .comment t → cleanText t)
    (Z : List Char) (ln b : Nat)
    (hvars : vars ≤ INT_MAX)
    (hlb : l.natAbs ≤ vars) (hps : parsed ≠ specified) :
    ∃ b2, bodyLoop vars specified (f + 1) parsed ll adds
        ⟨intChars l ++ (BodyElem.render sep ++ Z), ln, b⟩
      = bodyLoop vars specified f (if l = 0 then parsed + 1 else parsed) l (adds ++ [l])
          ⟨Z, ln + BodyElem.nlOf sep, b2⟩ := by
  obtain ⟨d0, ds, hdec, hd0lt, hdslt, hdval, hd00⟩ := natChars_decomp l.natAbs
  obtain ⟨hdig, hdv, hr, hn, hsp, htab, hc, hminus⟩ := digitChar_spec hd0lt
  have hhead := sep_head_not_digit sep hsepkind Z
  have hvalle : valFrom d0 ds ≤ INT_MAX := by rw [hdval]; omega
  have hpsF : (parsed = specified) = False := eq_false hps
  by_cases hlneg : l < 0
  · -- negative literal: a minus sign, then the digits
    have hich : intChars l ++ (BodyElem.render sep ++ Z)
        = '-' :: (digitChar d0 :: (List.map digitChar ds ++ (BodyElem.render sep ++ Z))) := by
      rw [intChars, if_pos hlneg, hdec]
      simp
    have hn0 := next_cons_other '-'
      (digitChar d0 :: (List.map digitChar ds ++ (BodyElem.render sep ++ Z))) ln b
      (by decide) (by decide)
    have hn1 := next_cons_other (digitChar d0)
      (List.map digitChar ds ++ (BodyElem.render sep ++ Z)) ln (b + 1) hr hn
    have hwsF : (('-' : Char) = ' ' ∨ ('-' : Char) = '\t' ∨ ('-' : Char) = '\n') = False :=
      eq_false (by decide)
    have hcF : (('-' : Char) = 'c') = False := eq_false (by decide)
    have hnum := parseNumLoop_digits INT_MAX .invalidDigitAfterZeroNumber
      .numberWayTooLarge .numberTooLarge ds
      ((List.map digitChar ds ++ (BodyElem.render sep ++ Z)).length + 1) d0
      (BodyElem.render sep ++ Z) ln (b + 1 + 1) hdslt hd00 hvalle hhead
      (by simp only [List.length_append, List.length_map]; omega)
    have hslit : (-1 : Int) * (valFrom d0 ds : Int) = l := by
      rw [hdval, Int.ofNat_natAbs_of_nonpos (by omega)]
      ring
    have habs : (vars < l.natAbs) = False := eq_false (by omega)
    rcases hsepkind with ⟨w, rfl⟩ | ⟨t, rfl⟩
    · obtain ⟨c2, hc2w, hn2⟩ := next_ws w Z ln (b + 1 + 1 + ds.length)
      simp only [BodyElem.render] at hich hn0 hn1 hnum
      have hallow : (some c2 ≠ some ' ' ∧ some c2 ≠ some '\t' ∧ some c2 ≠ some '\n'
          ∧ some c2 ≠ some 'c') = False := by
        apply eq_false
        rintro ⟨ha, hb', hcn, _⟩
        rcases hc2w with h | h | h
        · exact ha (by rw [h])
        · exact hb' (by rw [h])
        · exact hcn (by rw [h])
      have hnotc : (some c2 = some 'c') = False := by
        apply eq_false
        intro h
        simp at h
        rcases hc2w with hh | hh | hh <;> (rw [hh] at h; exact absurd h (by decide))
      refine ⟨b + 1 + 1 + ds.length + w.render.length, ?_⟩
      simp only [BodyElem.render]
      rw [hich]
      simp only [bodyLoop, hn0, hwsF, if_false, hcF, eq_self_iff_true, if_true, hn1, hdig,
        hdv, hpsF, hnum, BodyElem.render, hn2, Except.map, hslit, habs, hallow, hnotc]
    · have hsh2 : BodyElem.render (.comment t) ++ Z = 'c' :: (t ++ '\n' :: Z) := by
        simp [BodyElem.render]
      rw [hsh2] at hich hn0 hn1 hnum
      have hn2 := next_cons_other 'c' (t ++ '\n' :: Z) ln (b + 1 + 1 + ds.length)
        (by decide) (by decide)
      have hskip := skipToNewline_clean .eofInComment t ((t ++ '\n' :: Z).length + 1) Z ln
        (b + 1 + 1 + ds.length + 1) (hsepcln t rfl)
        (by simp only [List.length_append, List.length_cons]; omega)
      have hallow : (some 'c' ≠ some ' ' ∧ some 'c' ≠ some '\t' ∧ some 'c' ≠ some '\n'
          ∧ some 'c' ≠ some 'c') = False := eq_false (by simp)
      refine ⟨b + 1 + 1 + ds.length + 1 + (t.length + 1), ?_⟩
      rw [hsh2, hich]
      simp only [bodyLoop, hn0, hwsF, if_false, hcF, eq_self_iff_true, if_true, hn1, hdig,
        hdv, hpsF, hnum, hn2, Except.map, hslit, habs, hallow, hskip, BodyElem.nlOf]
  · -- non-negative literal: the digits directly
    have hich : intChars l ++ (BodyElem.render sep ++ Z)
        = digitChar d0 :: (List.map digitChar ds ++ (BodyElem.render sep ++ Z)) := by
      rw [intChars, if_neg hlneg, hdec]
      simp
    have hn1 := next_cons_other (digitChar d0)
      (List.map digitChar ds ++ (BodyElem.render sep ++ Z)) ln b hr hn
    have hwsF : (digitChar d0 = ' ' ∨ digitChar d0 = '\t' ∨ digitChar d0 = '\n') = False := by
      apply eq_false
      rintro (h | h | h)
      exacts [hsp h, htab h, hn h]
    have hcF : (digitChar d0 = 'c') = False := eq_false hc
    have hmF : (digitChar d0 = '-') = False := eq_false hminus
    have hnum := parseNumLoop_digits INT_MAX .invalidDigitAfterZeroNumber
      .numberWayTooLarge .numberTooLarge ds
      ((List.map digitChar ds ++ (BodyElem.render sep ++ Z)).length + 1) d0
      (BodyElem.render sep ++ Z) ln (b + 1) hdslt hd00 hvalle hhead
      (by simp only [List.length_append, List.length_map]; omega)
    have hslit : (1 : Int) * (valFrom d0 ds : Int) = l := by
      rw [hdval, Int.natAbs_of_nonneg (by omega)]
      ring
    have habs : (vars < l.natAbs) = False := eq_false (by omega)
    rcases hsepkind with ⟨w, rfl⟩ | ⟨t, rfl⟩
    · obtain ⟨c2, hc2w, hn2⟩ := next_ws w Z ln (b + 1 + ds.length)
      simp only [BodyElem.render] at hich hn1 hnum
      have hallow : (some c2 ≠ some ' ' ∧ some c2 ≠ some '\t' ∧ some c2 ≠ some '\n'
          ∧ some c2 ≠ some 'c') = False := by
        apply eq_false
        rintro ⟨ha, hb', hcn, _⟩
        rcases hc2w with h | h | h
        · exact ha (by rw [h])
        · exact hb' (by rw [h])
        · exact hcn (by rw [h])
      have hnotc : (some c2 = some 'c') = False := by
        apply eq_false
        intro h
        simp at h
        rcases hc2w with hh | hh | hh <;> (rw [hh] at h; exact absurd h (by decide))
      refine ⟨b + 1 + ds.length + w.render.length, ?_⟩
      simp only [BodyElem.render]
      rw [hich]
      simp only [bodyLoop, hn1, hwsF, if_false, hcF, hmF, hdig, eq_self_iff_true, if_true,
        hdv, hpsF, hnum, BodyElem.render, hn2, Except.map, hslit, habs, hallow, hnotc]
    · have hsh2 : BodyElem.render (.comment t) ++ Z = 'c' :: (t ++ '\n' :: Z) := by
        simp [BodyElem.render]
      rw [hsh2] at hich hn1 hnum
      have hn2 := next_cons_other 'c' (t ++ '\n' :: Z) ln (b + 1 + ds.length)
        (by decide) (by decide)
      have hskip := skipToNewline_clean .eofInComment t ((t ++ '\n' :: Z).length + 1) Z ln
        (b + 1 + ds.length + 1) (hsepcln t rfl)
        (by simp only [List.length_append, List.length_cons]; omega)
      have hallow : (some 'c' ≠ some ' ' ∧ some 'c' ≠ some '\t' ∧ some 'c' ≠ some '\n'
          ∧ some 'c' ≠ some 'c') = False := eq_false (by simp)
      refine ⟨b + 1 + ds.length + 1 + (t.length + 1), ?_⟩
      rw [hsh2, hich]
      simp only [bodyLoop, hn1, hwsF, if_false, hcF, hmF, hdig, eq_self_iff_true, if_true,
        hdv, hpsF, hnum, hn2, Except.map, hslit, habs, hallow, hskip, BodyElem.nlOf]

/-- Running the clause-body loop over a rendered well-formed body prefix
followed by arbitrary further input: the loop consumes the whole prefix,
records exactly its literals in order, counts exactly its terminating
zeros, tracks its last literal and line count, and continues on the
remaining input with fuel left that still exceeds its length. -/
theorem bodyLoop_elems (vars specified : Nat) (hvars : vars ≤ INT_MAX) :
    ∀ (n : Nat) (elems : List BodyElem), elems.length ≤ n →
    ∀ (rest : List Char) (fuel parsed : Nat) (ll : Int) (adds : List Int) (ln b : Nat),
      sepOK elems = true →
      bodyClean elems →
      litsBounded vars elems →
      parsed + zerosOf elems ≤ specified →
      bodyTerminated elems →
      (renderBody elems).length + rest.length < fuel →
      ∃ fuel' b', rest.length < fuel' ∧
        bodyLoop vars specified fuel parsed ll adds ⟨renderBody elems ++ rest, ln, b⟩
          = bodyLoop vars specified fuel' (parsed + zerosOf elems) (lastLitOf elems ll)
              (adds ++ litsOf elems) ⟨rest, ln + nlCount elems, b'⟩ := by
  intro n
  induction n with
  | zero =>
    intro elems hlen
    have helems : elems = [] := List.eq_nil_of_length_eq_zero (by omega)
    subst helems
    intro rest fuel parsed ll adds ln b _ _ _ _ _ hfuel
    refine ⟨fuel, b, ?_, ?_⟩
    · simpa [renderBody] using hfuel
    · simp [renderBody, zerosOf, litsOf, lastLitOf, nlCount]
  | succ n ih =>
    intro elems hlen rest fuel parsed ll adds ln b hsep hclean hbound hinv hterm hfuel
    cases elems with
    | nil =>
      refine ⟨fuel, b, ?_, ?_⟩
      · simpa [renderBody] using hfuel
      · simp [renderBody, zerosOf, litsOf, lastLitOf, nlCount]
    | cons e es =>
      cases e with
      | ws w =>
        obtain ⟨f, rfl⟩ : ∃ f, fuel = f + 1 := ⟨fuel - 1, by
          rw [renderBody_cons] at hfuel
          simp only [List.length_append, BodyElem.render] at hfuel
          cases w <;> (simp [Ws.render] at hfuel; omega)⟩
        obtain ⟨c, hcw, hnext⟩ := next_ws w (renderBody es ++ rest) ln b
        have hcel : (c = ' ' ∨ c = '\t' ∨ c = '\n') = True := eq_true hcw
        have hstep : bodyLoop vars specified (f + 1) parsed ll adds
            ⟨renderBody (.ws w :: es) ++ rest, ln, b⟩
            = bodyLoop vars specified f parsed ll adds
                ⟨renderBody es ++ rest, ln + BodyElem.nlOf (.ws w), b + (Ws.render w).length⟩ := by
          rw [renderBody_cons, List.append_assoc]
          simp only [BodyElem.render]
          simp only [bodyLoop, hnext, hcel, if_true]
        obtain ⟨f', b', hf', hrec⟩ := ih es (by simp at hlen; omega)
          rest f parsed ll adds (ln + BodyElem.nlOf (.ws w)) (b + (Ws.render w).length)
          (by rwa [sepOK_cons_ws] at hsep)
          (fun t ht => hclean t (by simp [ht]))
          (fun l2 hl => hbound l2 (by simp [hl]))
          (by rwa [zerosOf_cons_ws] at hinv)
          (by
            unfold bodyTerminated at hterm ⊢
            rwa [litsOf_cons_ws] at hterm)
          (by
            rw [renderBody_cons] at hfuel
            simp only [List.length_append, BodyElem.render] at hfuel
            cases w <;> (simp [Ws.render] at hfuel; omega))
        refine ⟨f', b', hf', ?_⟩
        rw [hstep, hrec, zerosOf_cons_ws, lastLitOf_cons_ws, litsOf_cons_ws]
        have hln2 : ln + BodyElem.nlOf (.ws w) + nlCount es = ln + nlCount (.ws w :: es) := by
          rw [nlCount_cons]
          omega
        rw [hln2]
      | comment t =>
        obtain ⟨f, rfl⟩ : ∃ f, fuel = f + 1 := ⟨fuel - 1, by omega⟩
        have hct : cleanText t := hclean t (by simp)
        have hshape : renderBody (.comment t :: es) ++ rest
            = 'c' :: (t ++ '\n' :: (renderBody es ++ rest)) := by
          rw [renderBody_cons]
          simp [BodyElem.render]
        have hnext := next_cons_other 'c' (t ++ '\n' :: (renderBody es ++ rest)) ln b
          (by decide) (by decide)
        have hskip := skipToNewline_clean .eofInComment t
          ((t ++ '\n' :: (renderBody es ++ rest)).length + 1) (renderBody es ++ rest)
          ln (b + 1) hct
          (by simp only [List.length_append, List.length_cons]; omega)
        have hcF : (('c' : Char) = ' ' ∨ ('c' : Char) = '\t' ∨ ('c' : Char) = '\n') = False :=
          eq_false (by decide)
        have hstep : bodyLoop vars specified (f + 1) parsed ll adds
            ⟨renderBody (.comment t :: es) ++ rest, ln, b⟩
            = bodyLoop vars specified f parsed ll adds
                ⟨renderBody es ++ rest, ln + 1, b + 1 + (t.length + 1)⟩ := by
          rw [hshape]
          simp only [bodyLoop, hnext, hcF, if_false, eq_self_iff_true, if_true, hskip]
        have hfes : (renderBody es).length + rest.length < f := by
          have : (renderBody (.comment t :: es)).length
              = t.length + 2 + (renderBody es).length := by
            rw [renderBody_cons]
            simp [BodyElem.render]
            omega
          omega
        obtain ⟨f', b', hf', hrec⟩ := ih es (by simp at hlen; omega)
          rest f parsed ll adds (ln + 1) (b + 1 + (t.length + 1))
          (by rwa [sepOK_cons_comment] at hsep)
          (fun t2 ht2 => hclean t2 (by simp [ht2]))
          (fun l2 hl => hbound l2 (by simp [hl]))
          (by rwa [zerosOf_cons_comment] at hinv)
          (by
            unfold bodyTerminated at hterm ⊢
            rwa [litsOf_cons_comment] at hterm)
          hfes
        refine ⟨f', b', hf', ?_⟩
        rw [hstep, hrec, zerosOf_cons_comment, lastLitOf_cons_comment, litsOf_cons_comment]
        have hln2 : ln + 1 + nlCount es = ln + nlCount (.comment t :: es) := by
          rw [nlCount_cons]
          simp [BodyElem.nlOf]
          omega
        rw [hln2]
      | lit l =>
        obtain ⟨sep, es2, rfl, hsepkind, hsep2⟩ := sepOK_lit_cons hsep
        obtain ⟨f, rfl⟩ : ∃ f, fuel = f + 1 := ⟨fuel - 1, by omega⟩
        have hlb : l.natAbs ≤ vars := hbound l (by simp)
        have hzpos : 1 ≤ zerosOf (.lit l :: sep :: es2) := by
          rcases hterm with h | h
          · rw [litsOf_cons_lit] at h
            simp at h
          · unfold zerosOf
            exact List.count_pos_iff.mpr (getLast?_mem h)
        have hps : parsed ≠ specified := by omega
        have hsepcln : ∀ t, sep = .comment t → cleanText t := by
          intro t ht
          exact hclean t (by simp [ht])
        have hshape : renderBody (.lit l :: sep :: es2) ++ rest
            = intChars l ++ (BodyElem.render sep ++ (renderBody es2 ++ rest)) := by
          rw [renderBody_cons, renderBody_cons]
          simp [BodyElem.render, List.append_assoc]
        obtain ⟨b2, hstep⟩ := bodyLoop_lit_step vars specified f parsed ll l adds sep
          hsepkind hsepcln (renderBody es2 ++ rest) ln b hvars hlb hps
        -- relating the zero count and last literal through the two consumed elements
        have hsplits : zerosOf (.lit l :: sep :: es2)
            = (if l = 0 then 1 else 0) + zerosOf es2 := by
          rcases hsepkind with ⟨w, rfl⟩ | ⟨t, rfl⟩
          · rw [zerosOf_cons_lit, zerosOf_cons_ws]
          · rw [zerosOf_cons_lit, zerosOf_cons_comment]
        have hlastsplit : lastLitOf (.lit l :: sep :: es2) ll = lastLitOf es2 l := by
          rcases hsepkind with ⟨w, rfl⟩ | ⟨t, rfl⟩
          · rw [lastLitOf_cons_lit, lastLitOf_cons_ws]
          · rw [lastLitOf_cons_lit, lastLitOf_cons_comment]
        have hlitsplit : litsOf (.lit l :: sep :: es2) = l :: litsOf es2 := by
          rcases hsepkind with ⟨w, rfl⟩ | ⟨t, rfl⟩
          · rw [litsOf_cons_lit, litsOf_cons_ws]
          · rw [litsOf_cons_lit, litsOf_cons_comment]
        have hterm2 : bodyTerminated es2 := by
          unfold bodyTerminated at hterm ⊢
          rw [hlitsplit] at hterm
          rcases hterm with h | h
          · simp at h
          · cases hlit2 : litsOf es2 with
            | nil => exact Or.inl rfl
            | cons a L =>
              right
              rw [hlit2, List.getLast?_cons_cons] at h
              exact h
        have hsize : (renderBody (.lit l :: sep :: es2)).length
            = (intChars l).length + (BodyElem.render sep).length
              + (renderBody es2).length := by
          rw [renderBody_cons, renderBody_cons]
          simp [BodyElem.render]
          omega
        have hintpos : 1 ≤ (intChars l).length := by
          unfold intChars
          split
          · simp
          · have := natChars_ne_nil l.natAbs
            cases hnc : natChars l.natAbs with
            | nil => exact absurd hnc this
            | cons a L => simp [hnc]
        have hseppos : 1 ≤ (BodyElem.render sep).length := by
          rcases hsepkind with ⟨w, rfl⟩ | ⟨t, rfl⟩
          · cases w <;> simp [BodyElem.render, Ws.render]
          · simp [BodyElem.render]
        obtain ⟨f', b', hf', hrec⟩ := ih es2 (by simp at hlen; omega)
          rest f (if l = 0 then parsed + 1 else parsed) l (adds ++ [l])
          (ln + BodyElem.nlOf sep) b2
          (by
            rcases hsepkind with ⟨w, rfl⟩ | ⟨t, rfl⟩
            · rwa [sepOK_cons_ws] at hsep2
            · rwa [sepOK_cons_comment] at hsep2)
          (fun t2 ht2 => hclean t2 (by simp [ht2]))
          (fun l2 hl => hbound l2 (by simp [hl]))
          (by
            rw [hsplits] at hinv
            by_cases hl0 : l = 0 <;> simp [hl0] at hinv ⊢ <;> omega)
          hterm2
          (by
            have h1 := hfuel
            rw [hsize] at h1
            omega)
        refine ⟨f', b', hf', ?_⟩
        rw [hshape, hstep, hrec, hsplits, hlastsplit, hlitsplit]
        have hadds : (adds ++ [l]) ++ litsOf es2 = adds ++ (l :: litsOf es2) := by
          simp
        rw [hadds]
        have hzeq : (if l = 0 then parsed + 1 else parsed) + zerosOf es2
            = parsed + ((if l = 0 then 1 else 0) + zerosOf es2) := by
          by_cases hl0 : l = 0
          · simp [hl0]
            omega
          · simp [hl0]
        rw [hzeq]
        have hnlsplit : nlCount (.lit l :: sep :: es2) = BodyElem.nlOf sep + nlCount es2 := by
          rw [nlCount_cons, nlCount_cons]
          simp [BodyElem.nlOf]
        have hlneq : ln + BodyElem.nlOf sep + nlCount es2
            = ln + nlCount (.lit l :: sep :: es2) := by
          rw [hnlsplit]
          omega
        rw [hlneq]

theorem bodyLoop_nil (vars specified fuel parsed : Nat) (ll : Int) (adds : List Int)
    (ln b : Nat) (hf : 0 < fuel) :
    bodyLoop vars specified fuel parsed ll adds ⟨[], ln, b⟩
      = .ok ⟨adds, parsed, ll, ⟨[], ln, b⟩⟩ := by
  obtain ⟨f, rfl⟩ : ∃ f, fuel = f + 1 := ⟨fuel - 1, by omega⟩
  simp [bodyLoop, next_nil]

theorem lastLitOf_zero {elems : List BodyElem} (hterm : bodyTerminated elems) :
    lastLitOf elems 0 = 0 := by
  unfold lastLitOf
  rcases hterm with h | h
  · rw [h]
    rfl
  · rw [h]
    rfl

theorem parseBody_render_ok (vars specified : Nat) (hvars : vars ≤ INT_MAX)
    (elems : List BodyElem) (ln b : Nat)
    (hsep : sepOK elems = true) (hclean : bodyClean elems)
    (hbound : litsBounded vars elems)
    (hterm : bodyTerminated elems)
    (hz : zerosOf elems = specified) :
    ∃ b', parseBody vars specified ⟨renderBody elems, ln, b⟩
      = .ok ⟨litsOf elems, specified, 0, ⟨[], ln + nlCount elems, b'⟩⟩ := by
  obtain ⟨f', b', hf', heq⟩ := bodyLoop_elems vars specified hvars elems.length elems
    (le_refl _) [] ((renderBody elems).length + 1) 0 0 [] ln b hsep hclean hbound
    (by omega) hterm (by simp)
  rw [List.append_nil] at heq
  have hnil := bodyLoop_nil vars specified f' (0 + zerosOf elems) (lastLitOf elems 0)
    ([] ++ litsOf elems) (ln + nlCount elems) b' (by simpa using hf')
  simp only [List.nil_append, Nat.zero_add] at heq hnil
  have hlast0 := lastLitOf_zero hterm
  rw [hlast0] at heq hnil
  rw [hz] at heq hnil
  have hlt : (specified < specified) = False := eq_false (lt_irrefl _)
  refine ⟨b', ?_⟩
  simp only [parseBody, heq, hnil, ne_eq, eq_self_iff_true, not_true, if_false, hlt]

theorem parseBody_render_missing (vars specified : Nat) (hvars : vars ≤ INT_MAX)
    (elems : List BodyElem) (ln b : Nat)
    (hsep : sepOK elems = true) (hclean : bodyClean elems)
    (hbound : litsBounded vars elems)
    (hterm : bodyTerminated elems)
    (hz : zerosOf elems < specified) :
    parseBody vars specified ⟨renderBody elems, ln, b⟩
      = .error ⟨ln + nlCount elems,
          if zerosOf elems + 1 = specified then .singleClauseMissing
          else .clausesMissing (specified - zerosOf elems)⟩ := by
  obtain ⟨f', b', hf', heq⟩ := bodyLoop_elems vars specified hvars elems.length elems
    (le_refl _) [] ((renderBody elems).length + 1) 0 0 [] ln b hsep hclean hbound
    (by omega) hterm (by simp)
  rw [List.append_nil] at heq
  have hnil := bodyLoop_nil vars specified f' (0 + zerosOf elems) (lastLitOf elems 0)
    ([] ++ litsOf elems) (ln + nlCount elems) b' (by simpa using hf')
  simp only [List.nil_append, Nat.zero_add] at heq hnil
  have hlast0 := lastLitOf_zero hterm
  rw [hlast0] at heq hnil
  have hlt : (zerosOf elems < specified) = True := eq_true hz
  simp only [parseBody, heq, hnil, ne_eq, eq_self_iff_true, not_true,
    if_false, hlt, if_true]
  by_cases hc : zerosOf elems + 1 = specified <;> simp [hc]

/-- Parsing a fully well-formed rendered DIMACS problem succeeds, with the
body literals (terminating zeros included) recorded in order and exactly
the declared number of clauses counted. -/
theorem parse_render_ok (d : Dimacs) (h : d.WF) :
    ∃ st, parse d.render = .ok ⟨d.vars, d.clauses, litsOf d.body, d.clauses, st⟩ := by
  obtain ⟨⟨hV, hM, hhc, hb1, hb2, hb3, hsep, hcln, hbound, hterm⟩, hz⟩ := h
  obtain ⟨st0, hok, hin, hln⟩ := parseHeader_render d.headerComments d.preVars d.vars
    d.preClauses d.clauses d.postClauses (renderBody d.body) hhc hb1 hb2 hb3 hV hM
  rcases st0 with ⟨inp, ln0, b0⟩
  simp only at hin hln
  subst hin
  subst hln
  obtain ⟨b', hbody⟩ := parseBody_render_ok d.vars d.clauses hV d.body
    (d.headerComments.length + 2) b0 hsep hcln hbound hterm hz
  have hrender : d.render = renderHeader d.headerComments d.preVars d.vars d.preClauses
      d.clauses d.postClauses ++ renderBody d.body := rfl
  refine ⟨⟨[], d.headerComments.length + 2 + nlCount d.body, b'⟩, ?_⟩
  rw [hrender]
  simp only [parse, hok, hbody]

/-- Parsing a rendered DIMACS problem whose body terminates fewer clauses
than declared fails at end of stream, with the single-clause message when
exactly one clause is missing and the counted message otherwise. -/
theorem parse_render_missing (d : Dimacs) (hpre : d.WFpre)
    (hz : zerosOf d.body < d.clauses) :
    ∃ ln, parse d.render
      = .error ⟨ln, if zerosOf d.body + 1 = d.clauses then .singleClauseMissing
                    else .clausesMissing (d.clauses - zerosOf d.body)⟩ := by
  obtain ⟨hV, hM, hhc, hb1, hb2, hb3, hsep, hcln, hbound, hterm⟩ := hpre
  obtain ⟨st0, hok, hin, hln⟩ := parseHeader_render d.headerComments d.preVars d.vars
    d.preClauses d.clauses d.postClauses (renderBody d.body) hhc hb1 hb2 hb3 hV hM
  rcases st0 with ⟨inp, ln0, b0⟩
  simp only at hin hln
  subst hin
  subst hln
  have hbody := parseBody_render_missing d.vars d.clauses hV d.body
    (d.headerComments.length + 2) b0 hsep hcln hbound hterm hz
  have hrender : d.render = renderHeader d.headerComments d.preVars d.vars d.preClauses
      d.clauses d.postClauses ++ renderBody d.body := rfl
  refine ⟨d.headerComments.length + 2 + nlCount d.body, ?_⟩
  rw [hrender]
  simp only [parse, hok, hbody]

/-- Parsing a header followed by a well-formed body prefix followed by
arbitrary further characters reduces to running the body loop on those
further characters from the state reached after the prefix. -/
theorem parse_render_continue (hcs : List (List Char)) (pre1 : List Char) (V : Nat)
    (pre2 : List Char) (M : Nat) (post : List Char)
    (elems : List BodyElem) (extra : List Char)
    (h1 : ∀ t ∈ hcs, cleanText t) (hb1 : blanksOnly pre1) (hb2 : blanksOnly pre2)
    (hb3 : blanksOnly post) (hV : V ≤ INT_MAX) (hM : M ≤ MAX_SIZE_T)
    (hsep : sepOK elems = true) (hcln : bodyClean elems)
    (hbound : litsBounded V elems) (hzle : zerosOf elems ≤ M)
    (hterm : bodyTerminated elems) :
    ∃ fuel' b', extra.length < fuel' ∧
      parse (renderHeader hcs pre1 V pre2 M post ++ (renderBody elems ++ extra))
        = (match bodyLoop V M fuel' (zerosOf elems) 0 (litsOf elems)
              ⟨extra, hcs.length + 2 + nlCount elems, b'⟩ with
           | .error e => .error e
           | .ok r =>
             if r.lastLit ≠ 0 then .error ⟨r.final.lineno, .terminatingZeroMissing r.lastLit⟩
             else if r.parsedClauses < M then
               if r.parsedClauses + 1 = M then .error ⟨r.final.lineno, .singleClauseMissing⟩
               else .error ⟨r.final.lineno, .clausesMissing (M - r.parsedClauses)⟩
             else .ok ⟨V, M, r.adds, r.parsedClauses, r.final⟩) := by
  obtain ⟨st0, hok, hin, hln⟩ := parseHeader_render hcs pre1 V pre2 M post
    (renderBody elems ++ extra) h1 hb1 hb2 hb3 hV hM
  rcases st0 with ⟨inp, ln0, b0⟩
  simp only at hin hln
  subst hin
  subst hln
  obtain ⟨f', b', hf', heq⟩ := bodyLoop_elems V M hV elems.length elems (le_refl _)
    extra ((renderBody elems ++ extra).length + 1) 0 0 [] (hcs.length + 2) b0
    hsep hcln hbound (by omega) hterm
    (by simp only [List.length_append]; omega)
  simp only [List.nil_append, Nat.zero_add] at heq
  rw [lastLitOf_zero hterm] at heq
  refine ⟨f', b', hf', ?_⟩
  simp only [parse, hok, parseBody, heq]
  rcases hres : bodyLoop V M f' (zerosOf elems) 0 (litsOf elems)
      ⟨extra, hcs.length + 2 + nlCount elems, b'⟩ with e | r
  · simp
  · simp only [show (match (Except.ok r : Except PErr BodyOk) with
        | Except.error e => Except.error e
        | Except.ok r2 =>
          if r2.lastLit ≠ 0 then
            Except.error (⟨r2.final.lineno, .terminatingZeroMissing r2.lastLit⟩ : PErr)
          else if r2.parsedClauses < M then
            if r2.parsedClauses + 1 = M then
              Except.error (⟨r2.final.lineno, .singleClauseMissing⟩ : PErr)
            else Except.error (⟨r2.final.lineno, .clausesMissing (M - r2.parsedClauses)⟩ : PErr)
          else Except.ok r2)
      = if r.lastLit ≠ 0 then
          Except.error (⟨r.final.lineno, .terminatingZeroMissing r.lastLit⟩ : PErr)
        else if r.parsedClauses < M then
          if r.parsedClauses + 1 = M then
            Except.error (⟨r.final.lineno, .singleClauseMissing⟩ : PErr)
          else Except.error (⟨r.final.lineno, .clausesMissing (M - r.parsedClauses)⟩ : PErr)
        else Except.ok r from rfl]
    split_ifs <;> simp

/-- When the declared number of clauses has already been terminated, the
very next literal token (of either sign, any magnitude) makes the body
loop fail with the more-clauses-than-specified error: the error is raised
after reading only the sign and first digit of the token, at the token's
own line, regardless of what follows in the input. -/
theorem bodyLoop_extra_lit (vars specified fuel : Nat) (ll l : Int) (adds : List Int)
    (suffix : List Char) (ln b : Nat) (hfuel : 0 < fuel) :
    bodyLoop vars specified fuel specified ll adds ⟨intChars l ++ suffix, ln, b⟩
      = .error ⟨ln, .moreClausesThanSpecified⟩ := by
  obtain ⟨f, rfl⟩ : ∃ f, fuel = f + 1 := ⟨fuel - 1, by omega⟩
  obtain ⟨d0, ds, hdec, hd0lt, hdslt, hdval, hd00⟩ := natChars_decomp l.natAbs
  obtain ⟨hdig, hdv, hr, hn, hsp, htab, hc, hminus⟩ := digitChar_spec hd0lt
  by_cases hlneg : l < 0
  · have hich : intChars l ++ suffix
        = '-' :: (digitChar d0 :: (List.map digitChar ds ++ suffix)) := by
      rw [intChars, if_pos hlneg, hdec]
      simp
    have hn0 := next_cons_other '-' (digitChar d0 :: (List.map digitChar ds ++ suffix)) ln b
      (by decide) (by decide)
    have hn1 := next_cons_other (digitChar d0) (List.map digitChar ds ++ suffix) ln (b + 1)
      hr hn
    have hwsF : (('-' : Char) = ' ' ∨ ('-' : Char) = '\t' ∨ ('-' : Char) = '\n') = False :=
      eq_false (by decide)
    have hcF : (('-' : Char) = 'c') = False := eq_false (by decide)
    rw [hich]
    simp only [bodyLoop, hn0, hwsF, if_false, hcF, eq_self_iff_true, if_true, hn1, hdig]
  · have hich : intChars l ++ suffix
        = digitChar d0 :: (List.map digitChar ds ++ suffix) := by
      rw [intChars, if_neg hlneg, hdec]
      simp
    have hn1 := next_cons_other (digitChar d0) (List.map digitChar ds ++ suffix) ln b hr hn
    have hwsF : (digitChar d0 = ' ' ∨ digitChar d0 = '\t' ∨ digitChar d0 = '\n') = False := by
      apply eq_false
      rintro (h | h | h)
      exacts [hsp h, htab h, hn h]
    have hcF : (digitChar d0 = 'c') = False := eq_false hc
    have hmF : (digitChar d0 = '-') = False := eq_false hminus
    rw [hich]
    simp only [bodyLoop, hn1, hwsF, if_false, hcF, hmF, hdig, eq_self_iff_true, if_true]

/-- A literal whose magnitude exceeds the declared maximum variable (but
still decodes without overflow) makes the body loop fail with the
literal-exceeds-maximum-variable error carrying the signed literal, when a
clause is still open for it. -/
theorem bodyLoop_bad_lit (vars specified fuel parsed : Nat) (ll l : Int) (adds : List Int)
    (suffix : List Char) (ln b : Nat) (hfuel : 0 < fuel)
    (hps : parsed ≠ specified)
    (hgt : vars < l.natAbs) (hle : l.natAbs ≤ INT_MAX) :
    bodyLoop vars specified fuel parsed ll adds ⟨intChars l ++ (' ' :: suffix), ln, b⟩
      = .error ⟨ln, .literalExceedsMaxVar l vars⟩ := by
  obtain ⟨f, rfl⟩ : ∃ f, fuel = f + 1 := ⟨fuel - 1, by omega⟩
  obtain ⟨d0, ds, hdec, hd0lt, hdslt, hdval, hd00⟩ := natChars_decomp l.natAbs
  obtain ⟨hdig, hdv, hr, hn, hsp, htab, hc, hminus⟩ := digitChar_spec hd0lt
  have hpsF : (parsed = specified) = False := eq_false hps
  have hvalle : valFrom d0 ds ≤ INT_MAX := by rw [hdval]; omega
  have hhead : ∀ x, (' ' :: suffix).head? = some x → x.isDigit = false := by
    intro x hx
    simp at hx
    subst hx
    decide
  have hallow : (some ' ' ≠ some ' ' ∧ some ' ' ≠ some '\t' ∧ some ' ' ≠ some '\n'
      ∧ some ' ' ≠ some 'c') = False := eq_false (by simp)
  have habs : (vars < l.natAbs) = True := eq_true hgt
  by_cases hlneg : l < 0
  · have hich : intChars l ++ (' ' :: suffix)
        = '-' :: (digitChar d0 :: (List.map digitChar ds ++ (' ' :: suffix))) := by
      rw [intChars, if_pos hlneg, hdec]
      simp
    have hn0 := next_cons_other '-'
      (digitChar d0 :: (List.map digitChar ds ++ (' ' :: suffix))) ln b (by decide) (by decide)
    have hn1 := next_cons_other (digitChar d0)
      (List.map digitChar ds ++ (' ' :: suffix)) ln (b + 1) hr hn
    have hwsF : (('-' : Char) = ' ' ∨ ('-' : Char) = '\t' ∨ ('-' : Char) = '\n') = False :=
      eq_false (by decide)
    have hcF : (('-' : Char) = 'c') = False := eq_false (by decide)
    have hnum := parseNumLoop_digits INT_MAX .invalidDigitAfterZeroNumber
      .numberWayTooLarge .numberTooLarge ds
      ((List.map digitChar ds ++ (' ' :: suffix)).length + 1) d0
      (' ' :: suffix) ln (b + 1 + 1) hdslt hd00 hvalle hhead
      (by simp only [List.length_append, List.length_map]; omega)
    have hn2 := next_cons_other ' ' suffix ln (b + 1 + 1 + ds.length) (by decide) (by decide)
    have hslit : (-1 : Int) * (valFrom d0 ds : Int) = l := by
      rw [hdval, Int.ofNat_natAbs_of_nonpos (by omega)]
      ring
    rw [hich]
    simp only [bodyLoop, hn0, hwsF, if_false, hcF, eq_self_iff_true, if_true, hn1, hdig,
      hdv, hpsF, hnum, hn2, Except.map, hslit, hallow, habs]
  · have hich : intChars l ++ (' ' :: suffix)
        = digitChar d0 :: (List.map digitChar ds ++ (' ' :: suffix)) := by
      rw [intChars, if_neg hlneg, hdec]
      simp
    have hn1 := next_cons_other (digitChar d0)
      (List.map digitChar ds ++ (' ' :: suffix)) ln b hr hn
    have hwsF : (digitChar d0 = ' ' ∨ digitChar d0 = '\t' ∨ digitChar d0 = '\n') = False := by
      apply eq_false
      rintro (h | h | h)
      exacts [hsp h, htab h, hn h]
    have hcF : (digitChar d0 = 'c') = False := eq_false hc
    have hmF : (digitChar d0 = '-') = False := eq_false hminus
    have hnum := parseNumLoop_digits INT_MAX .invalidDigitAfterZeroNumber
      .numberWayTooLarge .numberTooLarge ds
      ((List.map digitChar ds ++ (' ' :: suffix)).length + 1) d0
      (' ' :: suffix) ln (b + 1) hdslt hd00 hvalle hhead
      (by simp only [List.length_append, List.length_map]; omega)
    have hn2 := next_cons_other ' ' suffix ln (b + 1 + ds.length) (by decide) (by decide)
    have hslit : (1 : Int) * (valFrom d0 ds : Int) = l := by
      rw [hdval, Int.natAbs_of_nonneg (by omega)]
      ring
    rw [hich]
    simp only [bodyLoop, hn1, hwsF, if_false, hcF, hmF, hdig, eq_self_iff_true, if_true,
      hdv, hpsF, hnum, hn2, Except.map, hslit, hallow, habs]

/-- Facts about the canonical body consisting of `m` single-zero clauses,
one per line. -/
theorem zeroClauses_spec (m : Nat) :
    sepOK (zeroClauses m) = true ∧
    bodyClean (zeroClauses m) ∧
    zerosOf (zeroClauses m) = m ∧
    bodyTerminated (zeroClauses m) ∧
    nlCount (zeroClauses m) = m ∧
    (∀ vars, litsBounded vars (zeroClauses m)) := by
  induction m with
  | zero =>
    refine ⟨rfl, ?_, rfl, Or.inl rfl, rfl, ?_⟩
    · intro t ht
      simp [zeroClauses] at ht
    · intro vars l hl
      simp [zeroClauses] at hl
  | succ m ih =>
    obtain ⟨ihs, ihc, ihz, iht, ihn, ihb⟩ := ih
    have hcons : zeroClauses (m + 1) = .lit 0 :: .ws .nl :: zeroClauses m := by
      simp [zeroClauses, List.replicate_succ]
    refine ⟨?_, ?_, ?_, ?_, ?_, ?_⟩
    · rw [hcons]
      simp [sepOK]
      exact ihs
    · intro t ht
      rw [hcons] at ht
      simp at ht
      exact ihc t ht
    · rw [hcons, zerosOf_cons_lit, zerosOf_cons_ws, ihz]
      simp
      omega
    · rw [hcons]
      unfold bodyTerminated
      rw [litsOf_cons_lit, litsOf_cons_ws]
      right
      rw [getLast?_cons_eq]
      rcases iht with h | h
      · rw [h]
        rfl
      · rw [h]
        rfl
    · rw [hcons, nlCount_cons, nlCount_cons, ihn]
      simp [BodyElem.nlOf]
      omega
    · intro vars l hl
      rw [hcons] at hl
      rcases hl with _ | ⟨_, hl2⟩
      · simp
      · rcases hl2 with _ | ⟨_, hl3⟩
        exact ihb vars l hl3

/-- A declared maximum-variable count exceeding `INT_MAX` makes the header
parsing fail with one of the two overflow messages, on the header's own
line, while accumulating the count digit by digit. -/
theorem parseHeaderCounts_vars_overflow (V : Nat) (hV : INT_MAX < V)
    (tail : List Char) (ln b : Nat) :
    parseHeaderCounts ⟨natChars V ++ tail, ln, b⟩ = .error ⟨ln, .maxVarWayTooBig⟩ ∨
    parseHeaderCounts ⟨natChars V ++ tail, ln, b⟩ = .error ⟨ln, .maxVarTooBig⟩ := by
  obtain ⟨d0, ds, hdec, hd0lt, hdslt, hdval, hd00⟩ := natChars_decomp V
  obtain ⟨hdig, hdv, hr, hn, hsp, htab, hc, hminus⟩ := digitChar_spec hd0lt
  have hd0ne : d0 ≠ 0 := by
    intro h0
    have := hd00 h0
    subst this
    rw [valFrom_nil] at hdval
    omega
  have hs1 := skipBlanks_render [] ((natChars V ++ tail).length + 1)
    (natChars V ++ tail) ln b (by intro c hc2; simp at hc2)
    (by
      intro c hc2
      rw [hdec] at hc2
      simp at hc2
      subst hc2
      exact ⟨hsp, htab⟩)
    (by simp)
  rw [List.nil_append] at hs1
  have hn1 : next ⟨natChars V ++ tail, ln, b + ([] : List Char).length⟩
      = .ok (some (digitChar d0),
          ⟨List.map digitChar ds ++ tail, ln, b + ([] : List Char).length + 1⟩) := by
    rw [hdec, List.cons_append]
    exact next_cons_other (digitChar d0) _ ln (b + ([] : List Char).length) hr hn
  have hovf := parseNumLoop_overflow INT_MAX .invalidDigitAfterZeroMaxVar
    .maxVarWayTooBig .maxVarTooBig ds
    ((List.map digitChar ds ++ tail).length + 1) d0 tail ln (b + ([] : List Char).length + 1)
    hdslt hd0ne (by unfold INT_MAX; omega) (by rw [hdval]; omega)
    (by simp only [List.length_append, List.length_map]; omega)
  rcases hovf with hovf | hovf
  · left
    simp only [parseHeaderCounts, hs1, hn1, hdig, hdv, hovf, eq_self_iff_true, not_true,
      if_false, if_true, ne_eq]
  · right
    simp only [parseHeaderCounts, hs1, hn1, hdig, hdv, hovf, eq_self_iff_true, not_true,
      if_false, if_true, ne_eq]

/-! ## Soundness of the digit loops and the body loop on arbitrary input -/

theorem parseNumLoop_le (bound : Nat) (m0 m1 m2 : Msg) :
    ∀ (fuel v : Nat) (st : St) (r : Nat × Option Char × St),
      parseNumLoop bound m0 m1 m2 fuel v st = .ok r → v ≤ bound → r.1 ≤ bound := by
  intro fuel
  induction fuel with
  | zero =>
    intro v st r h _
    simp [parseNumLoop] at h
  | succ f ihf =>
    intro v st r h hv
    rw [parseNumLoop] at h
    rcases hn : next st with e | ⟨_ | c, st'⟩ <;> rw [hn] at h
    · simp at h
    · simp at h
      subst h
      exact hv
    · cases hd : c.isDigit with
      | false =>
        simp only [hd, Bool.false_eq_true, if_false, Except.ok.injEq] at h
        subst h
        exact hv
      | true =>
        simp only [hd, eq_self_iff_true, if_true] at h
        split_ifs at h with h1 h2 h3
        exact ihf (10 * v + digitVal c) st' r h (by omega)

theorem bodyLoop_adds_bounded (vars specified : Nat) :
    ∀ (fuel parsed : Nat) (ll : Int) (adds : List Int) (st : St) (r : BodyOk),
      bodyLoop vars specified fuel parsed ll adds st = .ok r →
      (∀ a ∈ adds, a.natAbs ≤ INT_MAX ∧ a.natAbs ≤ vars) →
      ∀ a ∈ r.adds, a.natAbs ≤ INT_MAX ∧ a.natAbs ≤ vars := by
  intro fuel
  induction fuel with
  | zero =>
    intro parsed ll adds st r h _
    simp [bodyLoop] at h
  | succ f ihf =>
    intro parsed ll adds st r h hadds
    rw [bodyLoop] at h
    rcases hn : next st with e | ⟨_ | c, st'⟩ <;> rw [hn] at h
    · simp at h
    · simp at h
      intro a ha
      rw [← h] at ha
      exact hadds a ha
    · simp only [] at h
      by_cases hws : c = ' ' ∨ c = '\t' ∨ c = '\n'
      · rw [if_pos hws] at h
        exact ihf _ _ _ _ _ h hadds
      · rw [if_neg hws] at h
        by_cases hcc : c = 'c'
        · rw [if_pos hcc] at h
          rcases hsk : skipToNewline Msg.eofInComment (st'.input.length + 1) st'
              with e | st'' <;> simp only [hsk] at h
          · simp at h
          · exact ihf _ _ _ _ _ h hadds
        · rw [if_neg hcc] at h
          have hsgn : ∀ (sign : Int) (d0 : Char) (st2 : St),
              (if c = '-' then
                  match next st' with
                  | .error e => .error e
                  | .ok (some d, st2') =>
                    if d.isDigit then .ok ((-1 : Int), d, st2')
                    else .error ⟨st2'.lineno, .expectedDigitAfterMinus⟩
                  | .ok (none, st2') => .error ⟨st2'.lineno, .expectedDigitAfterMinus⟩
                else if c.isDigit then .ok ((1 : Int), c, st')
                else .error ⟨st'.lineno, .expectedNumber⟩ :
                  Except PErr (Int × Char × St)) = .ok (sign, d0, st2) →
              (sign = 1 ∨ sign = -1) ∧ d0.isDigit = true := by
            intro sign d0 st2 hif
            by_cases hm : c = '-'
            · rw [if_pos hm] at hif
              rcases hn2 : next st' with e | ⟨_ | d, st2'⟩ <;> rw [hn2] at hif
              · simp at hif
              · simp at hif
              · simp only [] at hif
                by_cases hd : d.isDigit
                · rw [if_pos hd] at hif
                  simp at hif
                  exact ⟨Or.inr hif.1.symm, hif.2.1 ▸ hd⟩
                · rw [if_neg hd] at hif
                  simp at hif
            · rw [if_neg hm] at hif
              by_cases hd : c.isDigit
              · rw [if_pos hd] at hif
                simp at hif
                exact ⟨Or.inl hif.1.symm, hif.2.1 ▸ hd⟩
              · rw [if_neg hd] at hif
                simp at hif
          rcases hifr : (if c = '-' then
              match next st' with
              | .error e => .error e
              | .ok (some d, st2') =>
                if d.isDigit then .ok ((-1 : Int), d, st2')
                else .error ⟨st2'.lineno, .expectedDigitAfterMinus⟩
              | .ok (none, st2') => .error ⟨st2'.lineno, .expectedDigitAfterMinus⟩
            else if c.isDigit then .ok ((1 : Int), c, st')
            else .error ⟨st'.lineno, .expectedNumber⟩ :
              Except PErr (Int × Char × St)) with e | ⟨sign, d0, st2⟩ <;>
            simp only [hifr] at h
          · simp at h
          · obtain ⟨hsign, hd0⟩ := hsgn sign d0 st2 hifr
            by_cases hps : parsed = specified
            · rw [if_pos hps] at h
              simp at h
            · rw [if_neg hps] at h
              rcases hnum : parseNumLoop INT_MAX Msg.invalidDigitAfterZeroNumber
                  Msg.numberWayTooLarge Msg.numberTooLarge (st2.input.length + 1)
                  (digitVal d0) st2 with e | ⟨mag, oc2, st3⟩ <;> simp only [hnum] at h
              · simp at h
              · have hmag : mag ≤ INT_MAX := by
                  have h9 := digitVal_le_of_isDigit hd0
                  have := parseNumLoop_le INT_MAX Msg.invalidDigitAfterZeroNumber
                    Msg.numberWayTooLarge Msg.numberTooLarge (st2.input.length + 1)
                    (digitVal d0) st2 (mag, oc2, st3) hnum
                    (by unfold INT_MAX; omega)
                  simpa using this
                have hslitabs : (sign * (mag : Int)).natAbs = mag := by
                  rcases hsign with h1 | h1 <;> subst h1 <;> simp
                by_cases hchk : oc2 ≠ some ' ' ∧ oc2 ≠ some '\t' ∧ oc2 ≠ some '\n' ∧
                    oc2 ≠ some 'c'
                · rw [if_pos hchk] at h
                  simp at h
                · rw [if_neg hchk] at h
                  by_cases habs : vars < (sign * (mag : Int)).natAbs
                  · rw [if_pos habs] at h
                    simp at h
                  · rw [if_neg habs] at h
                    rw [hslitabs] at habs
                    have hnew : ∀ a ∈ adds ++ [sign * (mag : Int)],
                        a.natAbs ≤ INT_MAX ∧ a.natAbs ≤ vars := by
                      intro a ha
                      rcases List.mem_append.mp ha with ha2 | ha2
                      · exact hadds a ha2
                      · simp at ha2
                        subst ha2
                        rw [hslitabs]
                        omega
                    by_cases hoc2 : oc2 = some 'c'
                    · rw [if_pos hoc2] at h
                      rcases hsk : skipToNewline Msg.eofInComment (st3.input.length + 1) st3
                          with e | st4 <;> simp only [hsk] at h
                      · simp at h
                      · exact ihf _ _ _ _ _ h hnew
                    · rw [if_neg hoc2] at h
                      exact ihf _ _ _ _ _ h hnew

theorem parseBody_adds_bounded (vars specified : Nat) (st : St) (b : BodyOk)
    (h : parseBody vars specified st = .ok b) :
    ∀ a ∈ b.adds, a.natAbs ≤ INT_MAX ∧ a.natAbs ≤ vars := by
  rw [parseBody] at h
  rcases hb : bodyLoop vars specified (st.input.length + 1) 0 0 [] st with e | r0 <;>
    rw [hb] at h
  · simp at h
  · simp only [] at h
    split_ifs at h
    simp at h
    subst h
    exact bodyLoop_adds_bounded vars specified _ _ _ _ _ r0 hb (by simp)

theorem parse_adds_bounded (input : List Char) (r : ParseOk)
    (h : parse input = .ok r) :
    ∀ a ∈ r.adds, a.natAbs ≤ INT_MAX ∧ a.natAbs ≤ r.vars := by
  rw [parse] at h
  rcases hh : parseHeader input with e | ⟨vars, specified, st⟩ <;> rw [hh] at h
  · simp at h
  · simp only [] at h
    rcases hb : parseBody vars specified st with e | b <;> rw [hb] at h
    · simp at h
    · simp only [] at h
      simp at h
      subst h
      simpa using parseBody_adds_bounded vars specified st b hb

/-! ## Printer invariants -/

theorem intChars_len_le (v : Int) (h : Int32 v) : (intChars v).length ≤ 11 := by
  have habs : v.natAbs ≤ 2147483648 := by
    rcases h with ⟨h1, h2⟩
    omega
  have hlt : v.natAbs < 10 ^ 10 := by
    have h10 : (10:Nat) ^ 10 = 10000000000 := by norm_num
    omega
  have hn := natChars_len_le hlt (by norm_num)
  rw [intChars]
  by_cases hneg : v < 0
  · rw [if_pos hneg]
    simp
    omega
  · rw [if_neg hneg]
    omega

theorem content_append (q : Printer) (t : List Char) :
    content ⟨q.buffer ++ t, q.lines⟩ = content q ++ t := by
  simp [content, List.append_assoc]

theorem flush_inv (p : Printer) (hp : printerInv p) :
    printerInv (flush_printed_values p) ∧ (flush_printed_values p).buffer = [] ∧
    content (flush_printed_values p) = content p := by
  rw [flush_printed_values]
  by_cases hb : p.buffer = []
  · rw [if_pos hb]
    exact ⟨hp, hb, rfl⟩
  · rw [if_neg hb]
    refine ⟨⟨by simp, ?_⟩, rfl, ?_⟩
    · intro l hl
      simp at hl
      rcases hl with hl | hl
      · exact hp.2 l hl
      · subst hl
        refine ⟨?_, rfl⟩
        have := hp.1
        simp
        omega
    · simp [content]

theorem print_value_spec (v : Int) (p : Printer) (hv : Int32 v) (hp : printerInv p) :
    printerInv (print_value v p) ∧
    content (print_value v p) = content p ++ tmpOf v := by
  have hflush := flush_inv p hp
  have htmp : (intChars v).length ≤ 11 := intChars_len_le v hv
  simp only [print_value]
  by_cases hc : 77 < p.buffer.length + (' ' :: intChars v).length
  · rw [if_pos hc]
    obtain ⟨⟨hb1, hb2⟩, hbuf, hcontent⟩ := hflush
    refine ⟨⟨?_, ?_⟩, ?_⟩
    · rw [hbuf]
      simp
      omega
    · intro l hl
      exact hb2 l hl
    · rw [content_append (flush_printed_values p) (' ' :: intChars v), hcontent]
      rfl
  · rw [if_neg hc]
    simp only [List.length_cons, not_lt] at hc
    refine ⟨⟨?_, ?_⟩, ?_⟩
    · simp
      omega
    · intro l hl
      exact hp.2 l hl
    · rw [content_append p (' ' :: intChars v)]
      rfl

theorem printer_fold_spec (vals : List Int) :
    ∀ p : Printer, (∀ v ∈ vals, Int32 v) → printerInv p →
      printerInv (vals.foldl (fun q w => print_value w q) p) ∧
      content (vals.foldl (fun q w => print_value w q) p) =
        content p ++ (vals.map tmpOf).flatten := by
  induction vals with
  | nil =>
    intro p _ hp
    simpa using hp
  | cons v vs ih =>
    intro p hv hp
    obtain ⟨h1, h2⟩ := print_value_spec v p (hv v (by simp)) hp
    obtain ⟨h3, h4⟩ := ih (print_value v p) (fun w hw => hv w (by simp [hw])) h1
    refine ⟨by simpa using h3, ?_⟩
    simp only [List.foldl_cons, List.map_cons, List.flatten_cons]
    rw [h4, h2, List.append_assoc]

theorem printValues_spec (vals : List Int) (hv : ∀ v ∈ vals, Int32 v) :
    (printValues vals).buffer = [] ∧
    (∀ l ∈ (printValues vals).lines, l.length ≤ 78 ∧ l.head? = some 'v') ∧
    content (printValues vals) = (vals.map tmpOf).flatten := by
  obtain ⟨hinv, hcont⟩ := printer_fold_spec vals ⟨[], []⟩ hv ⟨by simp, by simp⟩
  obtain ⟨hfinv, hfbuf, hfcont⟩ := flush_inv _ hinv
  rw [printValues]
  refine ⟨hfbuf, hfinv.2, ?_⟩
  rw [hfcont, hcont]
  simp [content]

/-! ## Signal-handler lemmas -/

theorem sigNum_ne_zero (s : Sig) : sigNum s ≠ 0 := by
  cases s <;> simp [sigNum]

theorem catch_signal_caught (sig : Sig) (s : SigState) (h : s.caught_signal ≠ 0) :
    catch_signal sig s = s := by
  rw [catch_signal, if_pos h]

theorem foldl_catch_caught (sigs : List Sig) :
    ∀ s : SigState, s.caught_signal ≠ 0 →
      sigs.foldl (fun t sig => catch_signal sig t) s = s := by
  induction sigs with
  | nil =>
    intro s _
    rfl
  | cons a as ih =>
    intro s h
    rw [List.foldl_cons, catch_signal_caught a s h]
    exact ih s h

theorem deliverSignals_cons (quiet : Bool) (s0 : Sig) (rest : List Sig) :
    deliverSignals quiet (s0 :: rest) =
      ⟨sigNum s0, quiet, if quiet then 0 else 1, 1, [sigNum s0]⟩ := by
  rw [deliverSignals, List.foldl_cons]
  have h1 : catch_signal s0 (initialSigState quiet) =
      ⟨sigNum s0, quiet, if quiet then 0 else 1, 1, [sigNum s0]⟩ := by
    rw [catch_signal]
    simp [initialSigState]
  rw [h1]
  exact foldl_catch_caught rest _ (by simpa using sigNum_ne_zero s0)

/-! ## Configuration-check lemmas -/

theorem configure_quiet_combos (la : Bool) (args : List String) (cfg : Config)
    (h : parseArgsLoop la args initialConfig = .ok cfg) :
    (cfg.quiet = true ∧ 1 < cfg.verbose →
       ∃ m, configure la args = .error1 m ∧ exitStatus (configure la args) = some 1) ∧
    (la = true ∧ cfg.quiet = true ∧ cfg.logging = true →
       configure la args = .error1 .quietLog ∧
       exitStatus (configure la args) = some 1) := by
  have hc : configure la args = checkConfig la cfg := by
    rw [configure, h]
  constructor
  · rintro ⟨hq, hv⟩
    rw [hc, checkConfig]
    by_cases hql : la = true ∧ cfg.quiet = true ∧ cfg.logging = true
    · rw [if_pos hql]
      exact ⟨.quietLog, rfl, rfl⟩
    · rw [if_neg hql, if_pos ⟨hq, hv⟩]
      exact ⟨.quietVerbose, rfl, rfl⟩
  · intro hql
    rw [hc, checkConfig, if_pos hql]
    exact ⟨rfl, rfl⟩

/-! ## The claims -/

/-- Claim C1: for every well-formed DIMACS description with `V` declared
variables and `M` declared clauses, parsing its rendering succeeds (no
parse error is raised), the literals forwarded to `satch_add` are exactly
the literal tokens of the body in parse order, terminating zeros included,
and those literals contain exactly `M` zeros. -/
theorem claim_C1_wellformed_parse (d : Dimacs) (h : d.WF) :
    ∃ st, parse d.render = .ok ⟨d.vars, d.clauses, litsOf d.body, d.clauses, st⟩ ∧
      (litsOf d.body).count 0 = d.clauses := by
  obtain ⟨st, hst⟩ := parse_render_ok d h
  exact ⟨st, hst, h.2⟩

/-- Claim C1, checked on the formula `1 -2 0  -1 3 0` under header
`p cnf 3 2`. -/
theorem claim_C1_wellformed_parse_witness :
    ∃ st, parse (Dimacs.mk [] [] 3 [] 2 []
        [.lit 1, .ws .sp, .lit (-2), .ws .sp, .lit 0, .ws .nl,
         .lit (-1), .ws .sp, .lit 3, .ws .sp, .lit 0, .ws .nl]).render
      = .ok ⟨3, 2, [1, -2, 0, -1, 3, 0], 2, st⟩ ∧
      ([1, -2, 0, -1, 3, 0] : List Int).count 0 = 2 :=
  claim_C1_wellformed_parse (Dimacs.mk [] [] 3 [] 2 []
      [.lit 1, .ws .sp, .lit (-2), .ws .sp, .lit 0, .ws .nl,
       .lit (-1), .ws .sp, .lit 3, .ws .sp, .lit 0, .ws .nl])
    ⟨⟨by decide, by decide, by decide, by decide, by decide, by decide, by decide,
      by intro t ht; simp at ht,
      by
        intro l hl
        simp at hl
        rcases hl with rfl | rfl | rfl | rfl | rfl | rfl <;> decide,
      by decide⟩, by decide⟩

/-- Claim C2: the declared variable count of the header is accepted for
every value up to and including `INT_MAX`, and rejected with one of the two
overflow errors, on the header line, for every larger value. -/
theorem claim_C2_var_boundary (V : Nat) :
    (V ≤ INT_MAX →
      ∃ st, parseHeader (renderHeader [] [] V [] 0 []) = .ok (V, 0, st)) ∧
    (INT_MAX < V →
      parseHeader (renderHeader [] [] V [] 0 []) = .error ⟨1, .maxVarWayTooBig⟩ ∨
      parseHeader (renderHeader [] [] V [] 0 []) = .error ⟨1, .maxVarTooBig⟩) := by
  constructor
  · intro hV
    obtain ⟨st, hok, _, _⟩ := parseHeader_render [] [] V [] 0 [] []
      (by simp) (by simp [blanksOnly]) (by simp [blanksOnly]) (by simp [blanksOnly])
      hV (Nat.zero_le _)
    rw [List.append_nil] at hok
    exact ⟨st, hok⟩
  · intro hV
    have hshape : renderHeader [] [] V [] 0 []
        = ([].map renderComment).flatten
          ++ ('p' :: ' ' :: 'c' :: 'n' :: 'f' :: ' '
              :: (natChars V ++ (' ' :: (natChars 0 ++ ['\n'])))) := by
      simp [renderHeader]
    rw [hshape, parseHeader_prefix [] (natChars V ++ (' ' :: (natChars 0 ++ ['\n'])))
      (by simp)]
    simpa using parseHeaderCounts_vars_overflow V hV (' ' :: (natChars 0 ++ ['\n'])) 1 6

/-- Claim C2, checked at the boundary: `V = INT_MAX` is accepted and
`V = INT_MAX + 1` is rejected on line 1. -/
theorem claim_C2_var_boundary_witness :
    (∃ st, parseHeader (renderHeader [] [] INT_MAX [] 0 []) = .ok (INT_MAX, 0, st)) ∧
    (parseHeader (renderHeader [] [] (INT_MAX + 1) [] 0 [])
        = .error ⟨1, .maxVarWayTooBig⟩ ∨
      parseHeader (renderHeader [] [] (INT_MAX + 1) [] 0 [])
        = .error ⟨1, .maxVarTooBig⟩) :=
  ⟨(claim_C2_var_boundary INT_MAX).1 (le_refl INT_MAX),
   (claim_C2_var_boundary (INT_MAX + 1)).2 (Nat.lt_succ_self INT_MAX)⟩

/-- Claim C3 is refuted as stated: with header `p cnf 5 1` and body
`0 5 0`, line 3 holds the literal `5` opening the second clause and line 4
holds the zero that would terminate it; the parser reports
more-clauses-than-specified already on line 3, at the first token of the
excess clause, not at the terminating zero on line 4. -/
theorem claim_C3_counterexample :
    parse ("p cnf 5 1\n0\n5\n0\n".data)
        = .error ⟨3, .moreClausesThanSpecified⟩ ∧
    parse ("p cnf 5 1\n0\n5\n0\n".data)
        ≠ .error ⟨4, .moreClausesThanSpecified⟩ := by
  refine ⟨rfl, ?_⟩
  intro hcontra
  have h1 : parse ("p cnf 5 1\n0\n5\n0\n".data)
      = .error ⟨3, .moreClausesThanSpecified⟩ := rfl
  rw [h1] at hcontra
  simp at hcontra

/-- Claim C3 (amended): after any well-formed body that already terminates
all `M` declared clauses, the error more-clauses-than-specified is raised
at the very next literal token — the first token of the excess clause — on
the line of that token, whatever that token is and whatever follows it: not
only when a terminating zero would complete the `(M+1)`-th clause, and not
at end-of-stream. -/
theorem claim_C3_amended (hcs : List (List Char)) (pre1 : List Char) (V : Nat)
    (pre2 : List Char) (M : Nat) (post : List Char)
    (elems : List BodyElem) (l : Int) (suffix : List Char)
    (h1 : ∀ t ∈ hcs, cleanText t) (hb1 : blanksOnly pre1) (hb2 : blanksOnly pre2)
    (hb3 : blanksOnly post) (hV : V ≤ INT_MAX) (hM : M ≤ MAX_SIZE_T)
    (hsep : sepOK elems = true) (hcln : bodyClean elems)
    (hbound : litsBounded V elems) (hterm : bodyTerminated elems)
    (hz : zerosOf elems = M) :
    parse (renderHeader hcs pre1 V pre2 M post
        ++ (renderBody elems ++ (intChars l ++ suffix)))
      = .error ⟨hcs.length + 2 + nlCount elems, .moreClausesThanSpecified⟩ := by
  obtain ⟨fuel', b', hf', heq⟩ := parse_render_continue hcs pre1 V pre2 M post
    elems (intChars l ++ suffix) h1 hb1 hb2 hb3 hV hM hsep hcln hbound
    (by omega) hterm
  rw [heq, hz, bodyLoop_extra_lit V M fuel' 0 l (litsOf elems)
    suffix (hcs.length + 2 + nlCount elems) b' (by omega)]

/-- Claim C3 (amended), checked on header `p cnf 2 1` with body `1 0 0`:
the first clause `1 0` satisfies the declared count, and the error is
reported at the excess zero, on line 2, where that token stands. -/
theorem claim_C3_amended_witness :
    parse (renderHeader [] [] 2 [] 1 []
        ++ (renderBody [.lit 1, .ws .sp, .lit 0, .ws .sp] ++ (intChars 0 ++ "\n".data)))
      = .error ⟨2, .moreClausesThanSpecified⟩ := by
  have h := claim_C3_amended [] [] 2 [] 1 []
    [.lit 1, .ws .sp, .lit 0, .ws .sp] 0 ("\n".data)
    (by simp) (by simp [blanksOnly]) (by simp [blanksOnly]) (by simp [blanksOnly])
    (by decide) (by decide) (by decide) (by intro t ht; simp at ht)
    (by
      intro l hl
      simp at hl
      rcases hl with rfl | rfl <;> decide)
    (by decide) (by decide)
  simpa using h

/-- Claim C4: a rendered DIMACS description whose body terminates fewer
clauses than declared fails at end of stream, with the dedicated
single-clause message when exactly one clause is missing and with the
counted message otherwise. -/
theorem claim_C4_missing_clauses (d : Dimacs) (hpre : d.WFpre)
    (hz : zerosOf d.body < d.clauses) :
    ∃ ln, parse d.render
      = .error ⟨ln, if zerosOf d.body + 1 = d.clauses then .singleClauseMissing
                    else .clausesMissing (d.clauses - zerosOf d.body)⟩ :=
  parse_render_missing d hpre hz

/-- Claim C4, checked with header `p cnf 1 2` over the single clause `1 0`:
exactly one clause is missing and the single-clause message is selected. -/
theorem claim_C4_missing_clauses_witness :
    ∃ ln, parse (Dimacs.mk [] [] 1 [] 2 [] [.lit 1, .ws .sp, .lit 0, .ws .nl]).render
      = .error ⟨ln,
          if zerosOf [BodyElem.lit 1, .ws .sp, .lit 0, .ws .nl] + 1 = 2
          then .singleClauseMissing else .clausesMissing (2 - zerosOf [BodyElem.lit 1, .ws .sp, .lit 0, .ws .nl])⟩ :=
  claim_C4_missing_clauses (Dimacs.mk [] [] 1 [] 2 [] [.lit 1, .ws .sp, .lit 0, .ws .nl])
    ⟨by decide, by decide, by decide, by decide, by decide, by decide, by decide,
     by intro t ht; simp at ht,
     by
       intro l hl
       simp at hl
       rcases hl with rfl | rfl <;> decide,
     by decide⟩
    (by decide)

/-- Claim C5: after any well-formed body prefix that still leaves clauses
open, a literal token whose magnitude exceeds the declared variable count
`V` (of either sign, as long as the magnitude passes the overflow guard)
makes parsing fail with the literal-exceeds-maximum-variable error at that
line of that token. -/
theorem claim_C5_oversized_literal (hcs : List (List Char)) (pre1 : List Char)
    (V : Nat) (pre2 : List Char) (M : Nat) (post : List Char)
    (elems : List BodyElem) (l : Int) (suffix : List Char)
    (h1 : ∀ t ∈ hcs, cleanText t) (hb1 : blanksOnly pre1) (hb2 : blanksOnly pre2)
    (hb3 : blanksOnly post) (hV : V ≤ INT_MAX) (hM : M ≤ MAX_SIZE_T)
    (hsep : sepOK elems = true) (hcln : bodyClean elems)
    (hbound : litsBounded V elems) (hterm : bodyTerminated elems)
    (hz : zerosOf elems < M)
    (hgt : V < l.natAbs) (hle : l.natAbs ≤ INT_MAX) :
    parse (renderHeader hcs pre1 V pre2 M post
        ++ (renderBody elems ++ (intChars l ++ (' ' :: suffix))))
      = .error ⟨hcs.length + 2 + nlCount elems, .literalExceedsMaxVar l V⟩ := by
  obtain ⟨fuel', b', hf', heq⟩ := parse_render_continue hcs pre1 V pre2 M post
    elems (intChars l ++ (' ' :: suffix)) h1 hb1 hb2 hb3 hV hM hsep hcln hbound
    (by omega) hterm
  rw [heq, bodyLoop_bad_lit V M fuel' (zerosOf elems) 0 l (litsOf elems) suffix
    (hcs.length + 2 + nlCount elems) b' (by omega) (by omega) hgt hle]

/-- Claim C5, checked under header `p cnf 1 1` for the negative literal
`-2`, whose magnitude 2 exceeds the single declared variable. -/
theorem claim_C5_oversized_literal_witness :
    parse (renderHeader [] [] 1 [] 1 []
        ++ (renderBody [] ++ (intChars (-2) ++ (' ' :: []))))
      = .error ⟨2, .literalExceedsMaxVar (-2) 1⟩ := by
  have h := claim_C5_oversized_literal [] [] 1 [] 1 [] [] (-2) []
    (by simp) (by simp [blanksOnly]) (by simp [blanksOnly]) (by simp [blanksOnly])
    (by decide) (by decide) (by decide) (by intro t ht; simp at ht)
    (by intro l hl; simp at hl) (by decide) (by decide) (by decide) (by decide)
  simpa using h

/-- Claim C6: appending any sequence of 32-bit witness values through
`print_value` and flushing once at the end emits only lines of at most 78
characters, each starting with `v`; the final flush leaves the buffer
empty, and the emitted lines carry, in order, exactly the rendered values
(` %d` for each), so no appended value is dropped. -/
theorem claim_C6_line_length (vals : List Int) (hv : ∀ v ∈ vals, Int32 v) :
    (∀ l ∈ (printValues vals).lines, l.length ≤ 78 ∧ l.head? = some 'v') ∧
    (printValues vals).buffer = [] ∧
    content (printValues vals) = (vals.map tmpOf).flatten := by
  obtain ⟨h1, h2, h3⟩ := printValues_spec vals hv
  exact ⟨h2, h1, h3⟩

/-- Claim C6, checked on the witness values `1 -2 3 0`. -/
theorem claim_C6_line_length_witness :
    (∀ l ∈ (printValues [1, -2, 3, 0]).lines, l.length ≤ 78 ∧ l.head? = some 'v') ∧
    (printValues [1, -2, 3, 0]).buffer = [] ∧
    content (printValues [1, -2, 3, 0]) = ([1, -2, 3, 0].map tmpOf).flatten :=
  claim_C6_line_length [1, -2, 3, 0]
    (by intro v hv; simp at hv; rcases hv with rfl | rfl | rfl | rfl <;> decide)

/-- Claim C7: a comment may start immediately after a literal with no
intervening whitespace; a well-formed body containing the fragment
`<literal><comment>` parses without error, the literal is decoded and
forwarded among the literals of the body, and the comment is skipped. -/
theorem claim_C7_inline_comment (d : Dimacs) (pre rest : List BodyElem) (l : Int)
    (t : List Char) (hbody : d.body = pre ++ (.lit l :: .comment t :: rest))
    (h : d.WF) :
    ∃ st, parse d.render = .ok ⟨d.vars, d.clauses, litsOf d.body, d.clauses, st⟩ ∧
      l ∈ litsOf d.body := by
  obtain ⟨st, hst⟩ := parse_render_ok d h
  refine ⟨st, hst, ?_⟩
  rw [hbody]
  simp [litsOf, List.filterMap_append]

/-- Claim C7, checked on the body `1c comment` followed by `0`: the input
renders as `p cnf 1 1` over `1c comment` and `0`. -/
theorem claim_C7_inline_comment_witness :
    ∃ st, parse (Dimacs.mk [] [] 1 [] 1 []
        [.lit 1, .comment [' ', 'o', 'k'], .lit 0, .ws .nl]).render
      = .ok ⟨1, 1, [1, 0], 1, st⟩ ∧
      (1 : Int) ∈ litsOf [BodyElem.lit 1, .comment [' ', 'o', 'k'], .lit 0, .ws .nl] :=
  claim_C7_inline_comment
    (Dimacs.mk [] [] 1 [] 1 [] [.lit 1, .comment [' ', 'o', 'k'], .lit 0, .ws .nl])
    [] [.lit 0, .ws .nl] 1 [' ', 'o', 'k'] rfl
    ⟨⟨by decide, by decide, by decide, by decide, by decide, by decide, by decide,
      by intro t ht; simp at ht; subst ht; decide,
      by
        intro l hl
        simp at hl
        rcases hl with rfl | rfl <;> decide,
      by decide⟩, by decide⟩

/-- Claim C8: however many watched signals are delivered, only the first
delivery has any effect: it records the signal, prints the diagnostics
exactly once unless quiet, restores the saved handlers exactly once and
re-raises exactly that signal; every further delivery leaves the state
unchanged, so nothing is printed, restored or raised twice. -/
theorem claim_C8_signal_once (quiet : Bool) (s0 : Sig) (rest : List Sig) :
    deliverSignals quiet (s0 :: rest) = deliverSignals quiet [s0] ∧
    (deliverSignals quiet (s0 :: rest)).printed = (if quiet then 0 else 1) ∧
    (deliverSignals quiet (s0 :: rest)).restored = 1 ∧
    (deliverSignals quiet (s0 :: rest)).raised = [sigNum s0] ∧
    (deliverSignals quiet (s0 :: rest)).caught_signal = sigNum s0 := by
  have h := deliverSignals_cons quiet s0 rest
  have h1 := deliverSignals_cons quiet s0 []
  rw [h, h1]
  exact ⟨rfl, rfl, rfl, rfl, rfl⟩

/-- Claim C9: when the option loop accepts the arguments, quiet combined
with verbosity above its default of 1 is a fatal configuration error, and
quiet combined with logging (in builds with logging support) is the fatal
quiet-log error; both exit with status 1. -/
theorem claim_C9_quiet_combos (la : Bool) (args : List String) (cfg : Config)
    (h : parseArgsLoop la args initialConfig = .ok cfg) :
    (cfg.quiet = true ∧ 1 < cfg.verbose →
       ∃ m, configure la args = .error1 m ∧ exitStatus (configure la args) = some 1) ∧
    (la = true ∧ cfg.quiet = true ∧ cfg.logging = true →
       configure la args = .error1 .quietLog ∧
       exitStatus (configure la args) = some 1) :=
  configure_quiet_combos la args cfg h

/-- Claim C9, checked on the argument vectors `-q -v` and `-q -l` of a
build with logging support. -/
theorem claim_C9_quiet_combos_witness :
    (∃ m, configure true ["-q", "-v"] = .error1 m ∧
       exitStatus (configure true ["-q", "-v"]) = some 1) ∧
    (configure true ["-q", "-l"] = .error1 .quietLog ∧
       exitStatus (configure true ["-q", "-l"]) = some 1) :=
  ⟨(claim_C9_quiet_combos true ["-q", "-v"] ⟨true, true, 2, false, none⟩ rfl).1
      ⟨rfl, by norm_num⟩,
   (claim_C9_quiet_combos true ["-q", "-l"] ⟨true, true, 1, true, none⟩ rfl).2
      ⟨rfl, rfl, rfl⟩⟩

/-- Claim C10: every literal of a successfully parsed input that reaches
`satch_add` has magnitude at most `INT_MAX`, and in particular never equals
`INT_MIN`, so negating it cannot overflow. -/
theorem claim_C10_add_range (input : List Char) (r : ParseOk)
    (h : parse input = .ok r) :
    ∀ a ∈ r.adds, a.natAbs ≤ INT_MAX ∧ a ≠ INT_MIN := by
  intro a ha
  obtain ⟨hmax, _⟩ := parse_adds_bounded input r h a ha
  refine ⟨hmax, ?_⟩
  intro he
  rw [he] at hmax
  rw [show INT_MIN.natAbs = 2147483648 from rfl] at hmax
  unfold INT_MAX at hmax
  omega

/-- Claim C10, checked on the literal `1` of the parse of `p cnf 1 1` with
clause `1 0`. -/
theorem claim_C10_add_range_witness :
    (1 : Int).natAbs ≤ INT_MAX ∧ (1 : Int) ≠ INT_MIN :=
  claim_C10_add_range ("p cnf 1 1\n1 0\n".data)
    (ParseOk.mk 1 1 [1, 0] 1 ⟨[], 3, 14⟩) rfl 1 (by decide)

end Satch
